import Mathlib

/-!
Verification development for the dotfiles-management CLI.

The filesystem is modelled as a finite tree (`FSTree`): a node is either a
file with a `String` content or a directory with an ordered list of named
entries (`FSEntries`).  Paths are lists of path components (`Path`); the
CLI's string paths produced by `join`/`homedir` are represented by the list
of their components, and the string operations the source performs on such
paths (`join(a, b)`, `file.replace(base, "")`, `dirname`) are represented by
`++`, `List.drop` of the base's length, and `List.dropLast` respectively,
which agree with the string forms on the paths the code builds.

Filesystem primitives (`existsSync`, `readFileSync`, `readdirSync`,
`mkdirSync {recursive: true}`, `copyFileSync`) are embedded as total
functions on this tree; a thrown filesystem error is represented by `none`
(for pure queries) or by a `false` success flag carrying the state reached
so far (for mutating operations), matching the per-entry try/catch structure
of the commands.  The external `diff` npm library's `diffLines` is not part
of the repository; it is embedded as a standard longest-common-subsequence
line diff producing runs of unchanged/added/removed lines, which is the
behaviour the code relies on.  The shell-out tool checks (`command -v x`)
are embedded as membership of `x` in an environment-supplied list of
available commands.
-/

namespace DF

mutual
/-- A filesystem node: file with contents, or directory with named entries. -/
inductive FSTree where
  | file : String → FSTree
  | dir : FSEntries → FSTree
/-- Ordered association list of directory entries (name, subtree). -/
inductive FSEntries where
  | nil : FSEntries
  | cons : String → FSTree → FSEntries → FSEntries
end

/-- A path is the list of its components. -/
abbrev Path := List String

/-- First entry with the given name, if any (directory member lookup). -/
def findE : FSEntries → String → Option FSTree
  | .nil, _ => none
  | .cons m t rest, n => if m = n then some t else findE rest n

/-- Replace the entry with the given name in place, or append it at the end. -/
def insertE : FSEntries → String → FSTree → FSEntries
  | .nil, n, t => .cons n t .nil
  | .cons m u rest, n, t => if m = n then .cons n t rest else .cons m u (insertE rest n t)

/-- Concatenation of two entry lists. -/
def appendE : FSEntries → FSEntries → FSEntries
  | .nil, ys => ys
  | .cons n t rest, ys => .cons n t (appendE rest ys)

/-- Resolve a path from a node. -/
def lookupT : FSTree → Path → Option FSTree
  | t, [] => some t
  | .file _, _ :: _ => none
  | .dir es, n :: p =>
    match findE es n with
    | some t => lookupT t p
    | none => none

/-- `existsSync`: the path resolves to some node. -/
def existsB (fs : FSTree) (p : Path) : Bool := (lookupT fs p).isSome

/-- `readFileSync(p, "utf-8")`: contents when the path is a file, `none` when
the read throws (missing path or directory). -/
def readFile (fs : FSTree) (p : Path) : Option String :=
  match lookupT fs p with
  | some (.file c) => some c
  | _ => none

/-- Write a subtree at a path whose parent chain must already consist of
directories; `none` models the `ENOENT`/`ENOTDIR` throw of a write whose
parent is missing or not a directory. -/
def setPathT : FSTree → Path → FSTree → Option FSTree
  | _, [], newT => some newT
  | .file _, _ :: _, _ => none
  | .dir es, n :: p, newT =>
    match p with
    | [] => some (.dir (insertE es n newT))
    | _ :: _ =>
      match findE es n with
      | some t => (setPathT t p newT).map (fun t2 => .dir (insertE es n t2))
      | none => none

/-- `mkdirSync(p, { recursive: true })`: create directories along the path;
`none` models the throw when a file blocks the path (or exists at the path). -/
def mkdirpT : FSTree → Path → Option FSTree
  | .file _, [] => none
  | .dir es, [] => some (.dir es)
  | .file _, _ :: _ => none
  | .dir es, n :: p =>
    match findE es n with
    | some t => (mkdirpT t p).map (fun t2 => .dir (insertE es n t2))
    | none => (mkdirpT (.dir .nil) p).map (fun t2 => .dir (insertE es n t2))

/-- `if (!existsSync(p)) mkdirSync(p, {recursive: true})` as used before copies. -/
def ensureDir (fs : FSTree) (p : Path) : Option FSTree :=
  if existsB fs p then some fs else mkdirpT fs p

/-- Recursive file listing of a directory's entries (`getAllFiles` body):
entries named ".git" are skipped, files are listed in entry order, and
directories are listed recursively.  `p` is the path accumulated so far. -/
def filesE : FSEntries → Path → List Path
  | .nil, _ => []
  | .cons n t rest, p =>
    if n = ".git" then filesE rest p
    else
      match t with
      | .file _ => (p ++ [n]) :: filesE rest p
      | .dir es2 => filesE es2 (p ++ [n]) ++ filesE rest p

/-- `getAllFiles(dir)`: `[]` when the path does not exist, the recursive file
listing when it is a directory, and `none` for the `readdirSync` throw when
the path exists but is a file. -/
def getAllFiles (fs : FSTree) (dir : Path) : Option (List Path) :=
  match lookupT fs dir with
  | none => some []
  | some (.file _) => none
  | some (.dir es) => some (filesE es dir)

/-- Entries with every ".git" entry removed, recursively (what a copy of the
entries produces at a fresh destination). -/
def stripE : FSEntries → FSEntries
  | .nil => .nil
  | .cons n t rest =>
    if n = ".git" then stripE rest
    else
      match t with
      | .file c => .cons n (.file c) (stripE rest)
      | .dir es2 => .cons n (.dir (stripE es2)) (stripE rest)

/-- Well-formedness of a directory entry list: names are distinct at every
level (true of any real directory tree). -/
def wfE : FSEntries → Bool
  | .nil => true
  | .cons n t rest =>
    (findE rest n).isNone &&
      (match t with
       | .file _ => true
       | .dir es2 => wfE es2) &&
      wfE rest

mutual
/-- Size measure used for strong induction over entry lists. -/
def szT : FSTree → Nat
  | .file _ => 1
  | .dir es => szE es + 1
def szE : FSEntries → Nat
  | .nil => 1
  | .cons _ t rest => szT t + szE rest + 1
end

/- ## Line diff (model of the third-party `diff` library's `diffLines`) -/

/-- One hunk of a line diff, as produced by `diffLines`: a run of lines that
are unchanged (`added = removed = false`), added, or removed. -/
structure Change where
  value : String
  added : Bool
  removed : Bool
deriving Repr, DecidableEq

/-- Kind of a single line in an edit script. -/
inductive LineKind where
  | common
  | add
  | remove
deriving Repr, DecidableEq

/-- Split a text into lines. -/
def splitLines (s : String) : List String := s.splitOn "\n"

/-- Length of a longest common subsequence of two line lists. -/
def lcsLen : List String → List String → Nat
  | [], _ => 0
  | _ :: _, [] => 0
  | x :: xs, y :: ys =>
    if x = y then lcsLen xs ys + 1
    else max (lcsLen xs (y :: ys)) (lcsLen (x :: xs) ys)
termination_by a b => a.length + b.length

/-- Per-line LCS edit script between two line lists. -/
def diffScript : List String → List String → List (LineKind × String)
  | [], [] => []
  | [], y :: ys => (.add, y) :: diffScript [] ys
  | x :: xs, [] => (.remove, x) :: diffScript xs []
  | x :: xs, y :: ys =>
    if x = y then (.common, x) :: diffScript xs ys
    else if lcsLen (x :: xs) ys ≤ lcsLen xs (y :: ys) then
      (.remove, x) :: diffScript xs (y :: ys)
    else
      (.add, y) :: diffScript (x :: xs) ys
termination_by a b => a.length + b.length

/-- Prepend one line's change onto grouped hunks, merging it into the first
hunk when the flags agree. -/
def pushChange (c : Change) : List Change → List Change
  | [] => [c]
  | c0 :: cs =>
    if (c.added == c0.added && c.removed == c0.removed) then
      ⟨c.value ++ "\n" ++ c0.value, c0.added, c0.removed⟩ :: cs
    else
      c :: c0 :: cs

/-- Merge an edit script into runs of same-kind lines (`diffLines` hunks). -/
def groupScript : List (LineKind × String) → List Change
  | [] => []
  | (k, s) :: rest => pushChange ⟨s, k == .add, k == .remove⟩ (groupScript rest)

/-- `diffLines(a, b)` of the `diff` library: LCS line diff merged into hunks. -/
def diffLines (a b : String) : List Change :=
  groupScript (diffScript (splitLines a) (splitLines b))

/- ## Tree comparator (`compareFiles`, `compareDirectories`, `hasDifferences`) -/

/-- Structured description of the difference at one compared path pair. -/
structure FileDiff where
  path : Path
  repoPath : Path
  installedPath : Path
  changes : List Change
  onlyInRepo : Bool
  onlyInSystem : Bool
deriving Repr, DecidableEq

/-- `compareFiles(repoPath, installedPath)`.  `.error ()` models the
uncaught `readFileSync` throw when both paths exist but one is a directory. -/
def compareFiles (fs : FSTree) (repoPath installedPath : Path) :
    Except Unit (Option FileDiff) :=
  let er := existsB fs repoPath
  let ei := existsB fs installedPath
  if !er && !ei then .ok none
  else if (er && !ei) || (!er && ei) then
    .ok (some ⟨repoPath, repoPath, installedPath, [], er && !ei, !er && ei⟩)
  else
    match readFile fs repoPath, readFile fs installedPath with
    | some a, some b => .ok (some ⟨repoPath, repoPath, installedPath, diffLines a b, false, false⟩)
    | _, _ => .error ()

/-- `Set.add` of the relative-path set: append if not already present
(JavaScript `Set` keeps first-insertion order). -/
def setAdd (l : List Path) (x : Path) : List Path :=
  if x ∈ l then l else l ++ [x]

/-- Relative path of `p` with respect to `base` (`p.replace(base, "")` on
the listing results, all of which extend `base`). -/
def relOf (base : Path) (p : Path) : Path := p.drop base.length

/-- The loop over the union of relative paths inside `compareDirectories`:
compare each pair and keep the non-`null` results. -/
def collectDiffs (fs : FSTree) (repoDir installedDir : Path) :
    List Path → Except Unit (List FileDiff)
  | [] => .ok []
  | rel :: rest =>
    match compareFiles fs (repoDir ++ rel) (installedDir ++ rel) with
    | .error _ => .error ()
    | .ok none => collectDiffs fs repoDir installedDir rest
    | .ok (some d) => (collectDiffs fs repoDir installedDir rest).map (d :: ·)

/-- `compareDirectories(repoDir, installedDir)`. -/
def compareDirectories (fs : FSTree) (repoDir installedDir : Path) :
    Except Unit (List FileDiff) :=
  if !existsB fs repoDir && !existsB fs installedDir then .ok []
  else if !existsB fs repoDir then
    match getAllFiles fs installedDir with
    | none => .error ()
    | some files =>
      .ok (files.map (fun f => ⟨f, repoDir ++ relOf installedDir f, f, [], false, true⟩))
  else if !existsB fs installedDir then
    match getAllFiles fs repoDir with
    | none => .error ()
    | some files =>
      .ok (files.map (fun f => ⟨f, f, installedDir ++ relOf repoDir f, [], true, false⟩))
  else
    match getAllFiles fs repoDir, getAllFiles fs installedDir with
    | some repoFiles, some installedFiles =>
      let rels := ((repoFiles.map (relOf repoDir)) ++ (installedFiles.map (relOf installedDir))).foldl setAdd []
      collectDiffs fs repoDir installedDir rels
    | _, _ => .error ()

/-- `hasDifferences(diff)`. -/
def hasDifferences (d : FileDiff) : Bool :=
  d.onlyInRepo || d.onlyInSystem || d.changes.any (fun c => c.added || c.removed)

/- ## Tree copier (`copyDirectory`, `copyFileSync`) -/

/-- The entry loop of `copyDirectory(src, dest, force)`, expressed on the
source entry list and the current destination subtree (all mutations of the
loop stay below the destination).  Returns the destination subtree after the
loop together with the success flag; a `false` flag models a thrown
filesystem error, with the partial state reached so far kept.  Entries named
".git" are skipped; a file entry is skipped when `force` is false and the
destination entry exists, copied otherwise (a copy onto an existing
directory throws); a directory entry is copied recursively after creating
the destination entry when absent. -/
def copyE : FSEntries → FSTree → Bool → FSTree × Bool
  | .nil, t0, _ => (t0, true)
  | .cons n t rest, t0, force =>
    if n = ".git" then copyE rest t0 force
    else
      match t0 with
      | .file c0 => (.file c0, false)
      | .dir d =>
        match t with
        | .file c =>
          if !force && (findE d n).isSome then copyE rest (.dir d) force
          else
            match findE d n with
            | some (.dir _) => (.dir d, false)
            | _ => copyE rest (.dir (insertE d n (.file c))) force
        | .dir es2 =>
          let sub0 := match findE d n with
            | some u => u
            | none => .dir .nil
          match copyE es2 sub0 force with
          | (sub1, true) => copyE rest (.dir (insertE d n sub1)) force
          | (sub1, false) => (.dir (insertE d n sub1), false)

/-- `copyDirectory(src, dest, force)` (the `install` variant; the `backup`
and `sync` variants have no `force` parameter and always copy, which is the
`force = true` instance).  Creates the destination when absent, throws when
the source is missing or not a directory, then runs the entry loop.  The
returned flag is false when some step threw; the filesystem reflects the
mutations performed up to that point. -/
def copyDirectory (fs : FSTree) (src dest : Path) (force : Bool) : FSTree × Bool :=
  match ensureDir fs dest with
  | none => (fs, false)
  | some fs1 =>
    match lookupT fs1 src with
    | some (.dir es) =>
      match lookupT fs1 dest with
      | some t0 =>
        match copyE es t0 force with
        | (t1, ok) =>
          match setPathT fs1 dest t1 with
          | some fs2 => (fs2, ok)
          | none => (fs1, false)
      | none => (fs1, false)
    | _ => (fs1, false)

/-- `copyFileSync(src, dest)`: throws when the source is not a readable
file, when the destination is an existing directory, or when the
destination's parent chain is missing. -/
def copyFileFS (fs : FSTree) (src dest : Path) : FSTree × Bool :=
  match readFile fs src with
  | none => (fs, false)
  | some c =>
    match lookupT fs dest with
    | some (.dir _) => (fs, false)
    | _ =>
      match setPathT fs dest (.file c) with
      | some fs2 => (fs2, true)
      | none => (fs, false)

/- ## Command layer -/

/-- Ambient environment of a run: the user's home directory path, the
repository root path (the `join(__dirname, "../..")` of the commands), and
the set of commands resolvable on the search path (`command -v`). -/
structure Env where
  home : Path
  repoRoot : Path
  cmds : List String

/-- Path rendering used inside report messages (component join). -/
def renderPath (p : Path) : String := String.intercalate "/" p

/-- Per-entry result of the `sync` command. -/
structure SyncResult where
  name : String
  success : Bool
  message : Option String
deriving Repr, DecidableEq

/-- Per-entry result of the `install` command. -/
structure InstallResult where
  name : String
  success : Bool
  message : Option String
  skipped : Bool
deriving Repr, DecidableEq

/-- Per-entry result of the `backup` command. -/
structure BackupResult where
  name : String
  success : Bool
  message : Option String
deriving Repr, DecidableEq

/-- Per-item result of the `verify` command. -/
structure VerifyResult where
  name : String
  installed : Bool
  message : Option String
  warning : Bool
  optional : Bool
  installUrl : Option String
deriving Repr, DecidableEq

/-- `syncHelix(dryrun)`: copy `~/.config/helix` to `configs/helix`.  The
caught-exception branch is the failed copy; its `error.message` text is
abstracted as "error". -/
def syncHelix (env : Env) (fs : FSTree) (dryrun : Bool) : FSTree × SyncResult :=
  let source := env.home ++ [".config", "helix"]
  let dest := env.repoRoot ++ ["configs", "helix"]
  if existsB fs source = false then
    (fs, ⟨"helix", false, some "~/.config/helix not found"⟩)
  else if dryrun then
    (fs, ⟨"helix", true, some ("Would sync: " ++ renderPath source ++ " → " ++ renderPath dest)⟩)
  else
    match copyDirectory fs source dest true with
    | (fs2, true) => (fs2, ⟨"helix", true, none⟩)
    | (fs2, false) => (fs2, ⟨"helix", false, some "error"⟩)

/-- `syncTmux(dryrun)`: copy `~/.config/tmux/tmux.conf` to
`configs/tmux/tmux.conf`, creating the parent directory when needed. -/
def syncTmux (env : Env) (fs : FSTree) (dryrun : Bool) : FSTree × SyncResult :=
  let source := env.home ++ [".config", "tmux", "tmux.conf"]
  let dest := env.repoRoot ++ ["configs", "tmux", "tmux.conf"]
  if existsB fs source = false then
    (fs, ⟨"tmux", false, some "~/.config/tmux/tmux.conf not found"⟩)
  else if dryrun then
    (fs, ⟨"tmux", true, some ("Would sync: " ++ renderPath source ++ " → " ++ renderPath dest)⟩)
  else
    match ensureDir fs dest.dropLast with
    | none => (fs, ⟨"tmux", false, some "error"⟩)
    | some fs1 =>
      match copyFileFS fs1 source dest with
      | (fs2, true) => (fs2, ⟨"tmux", true, none⟩)
      | (fs2, false) => (fs2, ⟨"tmux", false, some "error"⟩)

/-- `syncBashrc(dryrun)`: copy `~/.bashrc` to `configs/bashrc`, creating the
parent directory when needed. -/
def syncBashrc (env : Env) (fs : FSTree) (dryrun : Bool) : FSTree × SyncResult :=
  let source := env.home ++ [".bashrc"]
  let dest := env.repoRoot ++ ["configs", "bashrc"]
  if existsB fs source = false then
    (fs, ⟨"bashrc", false, some "~/.bashrc not found"⟩)
  else if dryrun then
    (fs, ⟨"bashrc", true, some ("Would sync: " ++ renderPath source ++ " → " ++ renderPath dest)⟩)
  else
    match ensureDir fs dest.dropLast with
    | none => (fs, ⟨"bashrc", false, some "error"⟩)
    | some fs1 =>
      match copyFileFS fs1 source dest with
      | (fs2, true) => (fs2, ⟨"bashrc", true, none⟩)
      | (fs2, false) => (fs2, ⟨"bashrc", false, some "error"⟩)

/-- `syncAll(dryrun)`. -/
def syncAll (env : Env) (fs : FSTree) (dryrun : Bool) : FSTree × List SyncResult :=
  let (fs1, r1) := syncHelix env fs dryrun
  let (fs2, r2) := syncTmux env fs1 dryrun
  let (fs3, r3) := syncBashrc env fs2 dryrun
  (fs3, [r1, r2, r3])

/-- Exit code of sync's `displayResults`: in dry-run mode nothing exits; in
normal mode `process.exit(1)` runs exactly when some result has
`success = false`. -/
def displaySyncExit (results : List SyncResult) (dryrun : Bool) : Nat :=
  if dryrun then 0
  else if results.all (fun r => r.success) then 0
  else 1

/-- Source base directory of the `install` command: the repo's `configs`,
or `backups/<date>` when `--from <date>` is given. -/
def installSourceBase (env : Env) (fromD : Option String) : Path :=
  match fromD with
  | some d => env.repoRoot ++ ["backups", d]
  | none => env.repoRoot ++ ["configs"]

/-- `installHelix(dryrun, force, from)`. -/
def installHelix (env : Env) (fs : FSTree) (dryrun force : Bool) (fromD : Option String) :
    FSTree × InstallResult :=
  let source := installSourceBase env fromD ++ ["helix"]
  let dest := env.home ++ [".config", "helix"]
  if existsB fs source = false then
    (fs, ⟨"helix", false,
      some (match fromD with
            | some d => "backups/" ++ d ++ "/helix not found"
            | none => "configs/helix not found in repo"), false⟩)
  else if !force && existsB fs dest then
    (fs, ⟨"helix", true, some "~/.config/helix already exists (use --force to overwrite)", true⟩)
  else if dryrun then
    (fs, ⟨"helix", true, some ("Would install: " ++ renderPath source ++ " → " ++ renderPath dest), false⟩)
  else
    match copyDirectory fs source dest force with
    | (fs2, true) => (fs2, ⟨"helix", true, none, false⟩)
    | (fs2, false) => (fs2, ⟨"helix", false, some "error", false⟩)

/-- `installTmux(dryrun, force, from)`. -/
def installTmux (env : Env) (fs : FSTree) (dryrun force : Bool) (fromD : Option String) :
    FSTree × InstallResult :=
  let source := installSourceBase env fromD ++ ["tmux", "tmux.conf"]
  let dest := env.home ++ [".config", "tmux", "tmux.conf"]
  if existsB fs source = false then
    (fs, ⟨"tmux", false,
      some (match fromD with
            | some d => "backups/" ++ d ++ "/tmux/tmux.conf not found"
            | none => "configs/tmux/tmux.conf not found in repo"), false⟩)
  else if !force && existsB fs dest then
    (fs, ⟨"tmux", true, some "~/.config/tmux/tmux.conf already exists (use --force to overwrite)", true⟩)
  else if dryrun then
    (fs, ⟨"tmux", true, some ("Would install: " ++ renderPath source ++ " → " ++ renderPath dest), false⟩)
  else
    match ensureDir fs dest.dropLast with
    | none => (fs, ⟨"tmux", false, some "error", false⟩)
    | some fs1 =>
      match copyFileFS fs1 source dest with
      | (fs2, true) => (fs2, ⟨"tmux", true, none, false⟩)
      | (fs2, false) => (fs2, ⟨"tmux", false, some "error", false⟩)

/-- `installBashrc(dryrun, force, from)`. -/
def installBashrc (env : Env) (fs : FSTree) (dryrun force : Bool) (fromD : Option String) :
    FSTree × InstallResult :=
  let source := installSourceBase env fromD ++ ["bashrc"]
  let dest := env.home ++ [".bashrc"]
  if existsB fs source = false then
    (fs, ⟨"bashrc", false,
      some (match fromD with
            | some d => "backups/" ++ d ++ "/bashrc not found"
            | none => "configs/bashrc not found in repo"), false⟩)
  else if !force && existsB fs dest then
    (fs, ⟨"bashrc", true, some "~/.bashrc already exists (use --force to overwrite)", true⟩)
  else if dryrun then
    (fs, ⟨"bashrc", true, some ("Would install: " ++ renderPath source ++ " → " ++ renderPath dest), false⟩)
  else
    match copyFileFS fs source dest with
    | (fs2, true) => (fs2, ⟨"bashrc", true, none, false⟩)
    | (fs2, false) => (fs2, ⟨"bashrc", false, some "error", false⟩)

/-- `installAll(dryrun, force, from)`: the three installs in order, each on
the filesystem state the previous one left. -/
def installAll (env : Env) (fs : FSTree) (dryrun force : Bool) (fromD : Option String) :
    FSTree × List InstallResult :=
  let (fs1, r1) := installHelix env fs dryrun force fromD
  let (fs2, r2) := installTmux env fs1 dryrun force fromD
  let (fs3, r3) := installBashrc env fs2 dryrun force fromD
  (fs3, [r1, r2, r3])

/-- Exit code of install's `displayResults`: in dry-run mode nothing exits;
otherwise `process.exit(1)` runs exactly when some result has
`success = false` (`skipped` only changes the summary line). -/
def installDisplayExit (results : List InstallResult) (dryrun : Bool) : Nat :=
  if dryrun then 0
  else if results.all (fun r => r.success) then 0
  else 1

/- ### backup -/

/-- Kind of a backup item. -/
inductive ItemKind where
  | file
  | directory
deriving Repr, DecidableEq

/-- One `BackupItem` of the backup command. -/
structure BackupItem where
  source : Path
  destination : Path
  kind : ItemKind
  name : String
deriving Repr, DecidableEq

/-- The three `getBackupItems(backupDir)` entries. -/
def getBackupItems (env : Env) (backupDir : Path) : List BackupItem :=
  [⟨env.home ++ [".config", "helix"], backupDir ++ ["helix"], .directory, "helix"⟩,
   ⟨env.home ++ [".config", "tmux", "tmux.conf"], backupDir ++ ["tmux", "tmux.conf"], .file, "tmux"⟩,
   ⟨env.home ++ [".bashrc"], backupDir ++ ["bashrc"], .file, "bashrc"⟩]

/-- Body of the `performBackup` loop for one item: a missing source is
recorded as "not found, skipped"; otherwise the item is copied (file items
after creating the destination's parent directory) and a thrown error is
caught and recorded as an unsuccessful result whose `error.message` text is
abstracted as "error". -/
def backupStep (fs : FSTree) (item : BackupItem) : FSTree × BackupResult :=
  if existsB fs item.source = false then
    (fs, ⟨item.name, false, some "not found, skipped"⟩)
  else
    match item.kind with
    | .file =>
      match ensureDir fs item.destination.dropLast with
      | none => (fs, ⟨item.name, false, some "error"⟩)
      | some fs1 =>
        match copyFileFS fs1 item.source item.destination with
        | (fs2, true) => (fs2, ⟨item.name, true, none⟩)
        | (fs2, false) => (fs2, ⟨item.name, false, some "error"⟩)
    | .directory =>
      match copyDirectory fs item.source item.destination true with
      | (fs2, true) => (fs2, ⟨item.name, true, none⟩)
      | (fs2, false) => (fs2, ⟨item.name, false, some "error"⟩)

/-- `performBackup(items)`: every item is attempted in order, each on the
state the previous left, and one result is recorded per item. -/
def performBackup : List BackupItem → FSTree → FSTree × List BackupResult
  | [], fs => (fs, [])
  | item :: rest, fs =>
    let (fs1, r) := backupStep fs item
    let (fs2, rs) := performBackup rest fs1
    (fs2, r :: rs)

/-- `displayBackupResults(results)`: counts successful results as "backed
up" and every unsuccessful result as "skipped" in the printed summary, and
never calls `process.exit`, so the command's exit code is 0; returned as
(backedUpCount, skippedCount, exit code). -/
def displayBackupResults (results : List BackupResult) : Nat × Nat × Nat :=
  (results.countP (fun r => r.success),
   results.countP (fun r => !r.success),
   0)

/- ### verify -/

/-- `checkCommand(c)`: `command -v c` succeeds exactly when `c` resolves on
the search path. -/
def checkCommand (env : Env) (c : String) : Bool := env.cmds.contains c

/-- `verifyHelix()`. -/
def verifyHelix (env : Env) : VerifyResult :=
  ⟨"Helix IDE (hx)", checkCommand env "hx", none, false, false,
   some "https://docs.helix-editor.com/install.html"⟩

/-- `verifyTmux()`. -/
def verifyTmux (env : Env) : VerifyResult :=
  ⟨"tmux", checkCommand env "tmux", none, false, false,
   some "https://github.com/tmux/tmux/wiki/Installing"⟩

/-- `verifyNvm()`: marker directory `~/.nvm`. -/
def verifyNvm (env : Env) (fs : FSTree) : VerifyResult :=
  let installed := existsB fs (env.home ++ [".nvm"])
  ⟨"nvm", installed, if installed then none else some "~/.nvm not found", false, false,
   some "https://github.com/nvm-sh/nvm#installing-and-updating"⟩

/-- `verifyFzf()`. -/
def verifyFzf (env : Env) : VerifyResult :=
  ⟨"fzf", checkCommand env "fzf", none, false, false,
   some "https://github.com/junegunn/fzf#installation"⟩

/-- `verifyZoxide()`: marker file `~/.local/bin/zoxide`. -/
def verifyZoxide (env : Env) (fs : FSTree) : VerifyResult :=
  let installed := existsB fs (env.home ++ [".local", "bin", "zoxide"])
  ⟨"zoxide", installed, if installed then none else some "~/.local/bin/zoxide not found",
   false, false, some "https://github.com/ajeetdsouza/zoxide#installation"⟩

/-- `verifyStarship()`. -/
def verifyStarship (env : Env) : VerifyResult :=
  ⟨"starship", checkCommand env "starship", none, false, false,
   some "https://starship.rs/guide/#-installation"⟩

/-- `verifyBashrc()`: missing `~/.bashrc` is not installed; a readable pair
with different contents is installed with a warning; a read error (caught)
is installed with a warning whose message is abstracted as "Error comparing
bashrc". -/
def verifyBashrc (env : Env) (fs : FSTree) : VerifyResult :=
  let bashrcPath := env.home ++ [".bashrc"]
  let configBashrcPath := env.repoRoot ++ ["configs", "bashrc"]
  if existsB fs bashrcPath = false then
    ⟨"bashrc", false, some "~/.bashrc not found", false, false, none⟩
  else
    match readFile fs bashrcPath, readFile fs configBashrcPath with
    | some a, some b =>
      if a ≠ b then
        ⟨"bashrc", true,
         some "⚠️  ~/.bashrc exists but differs from configs/bashrc - may need sync",
         true, false, none⟩
      else
        ⟨"bashrc", true, none, false, false, none⟩
    | _, _ =>
      ⟨"bashrc", true, some "Error comparing bashrc", true, false, none⟩

/-- `verifyHelixConfig()`. -/
def verifyHelixConfig (env : Env) (fs : FSTree) : VerifyResult :=
  if existsB fs (env.home ++ [".config", "helix"]) = false then
    ⟨"helix", false, some "~/.config/helix not found", false, false, none⟩
  else
    ⟨"helix", true, none, false, false, none⟩

/-- `verifyTmuxConfig()`. -/
def verifyTmuxConfig (env : Env) (fs : FSTree) : VerifyResult :=
  if existsB fs (env.home ++ [".config", "tmux", "tmux.conf"]) = false then
    ⟨"tmux", false, some "~/.config/tmux/tmux.conf not found", false, false, none⟩
  else
    ⟨"tmux", true, none, false, false, none⟩

/-- `verifyGh()`: optional tool. -/
def verifyGh (env : Env) : VerifyResult :=
  let installed := checkCommand env "gh"
  ⟨"gh (GitHub CLI)", installed,
   if installed then none else some "💡 Recommended: Install for GitHub Copilot integration",
   false, true, some "https://cli.github.com/manual/installation"⟩

/-- `verifyGitHubCopilotCli()`: optional tool. -/
def verifyGitHubCopilotCli (env : Env) : VerifyResult :=
  let installed := checkCommand env "copilot"
  ⟨"copilot (GitHub Copilot CLI)", installed,
   if installed then none else some "💡 Recommended: Install for AI-powered CLI assistance",
   false, true,
   some "https://docs.github.com/en/copilot/how-tos/copilot-cli/install-copilot-cli"⟩

/-- `verifyHtop()`: optional tool. -/
def verifyHtop (env : Env) : VerifyResult :=
  let installed := checkCommand env "htop"
  ⟨"htop", installed,
   if installed then none else some "💡 Recommended: Install for better system monitoring",
   false, true, some "https://github.com/htop-dev/htop"⟩

/-- `verifyAll()`. -/
def verifyAll (env : Env) (fs : FSTree) : List VerifyResult :=
  [verifyHelix env, verifyTmux env, verifyNvm env fs, verifyFzf env,
   verifyZoxide env fs, verifyStarship env, verifyBashrc env fs,
   verifyGh env, verifyGitHubCopilotCli env, verifyHtop env]

/-- Exit code of verify's `displayResults`: an optional result never
changes the verdict (a missing optional tool is printed and skipped, an
installed one passes the `!installed` test), a warning only changes the
summary line, and `process.exit(1)` runs exactly when some result is
neither installed nor optional. -/
def verifyDisplayExit (results : List VerifyResult) : Nat :=
  if results.all (fun r => r.installed || r.optional) then 0 else 1

/- ## Path relations -/

/-- `q` lies at or below `p` (`p` is an initial segment of `q`). -/
def under (p q : Path) : Prop := ∃ r, q = p ++ r

instance (p q : Path) : Decidable (under p q) :=
  decidable_of_iff (q.take p.length = p)
    ⟨fun h => ⟨q.drop p.length, by conv_lhs => rw [← List.take_append_drop p.length q, h]⟩,
     fun ⟨r, h⟩ => by rw [h, List.take_left]⟩

/-- The two paths are incomparable: neither lies below the other.  Writes
below one path then leave every node at or below the other untouched. -/
def sep (p q : Path) : Prop := ¬ under p q ∧ ¬ under q p

instance (p q : Path) : Decidable (sep p q) :=
  inferInstanceAs (Decidable (¬ under p q ∧ ¬ under q p))

/-- The resolved node, if any, is not a directory (reading it cannot throw
`EISDIR`). -/
def notDirO : Option FSTree → Bool
  | some (.dir _) => false
  | _ => true

/- ## Induction tools for the mutual tree type -/

theorem szE_strongInd (P : FSEntries → Prop)
    (h : ∀ es, (∀ es2, szE es2 < szE es → P es2) → P es) : ∀ es, P es := by
  have key : ∀ n es, szE es ≤ n → P es := by
    intro n
    induction n with
    | zero =>
      intro es h0
      exact h es (fun es2 h2 => absurd (Nat.lt_of_lt_of_le h2 h0) (Nat.not_lt_zero _))
    | succ n ih =>
      intro es hle
      exact h es (fun es2 h2 => ih es2 (Nat.le_of_lt_succ (Nat.lt_of_lt_of_le h2 hle)))
  exact fun es => key (szE es) es (Nat.le_refl _)

theorem szE_rest_lt (n : String) (t : FSTree) (rest : FSEntries) :
    szE rest < szE (.cons n t rest) := by
  simp [szE]
  omega

theorem szE_sub_lt (n : String) (es2 rest : FSEntries) :
    szE es2 < szE (.cons n (.dir es2) rest) := by
  simp [szE, szT]
  omega

theorem entriesInd (P : FSEntries → Prop) (h0 : P .nil)
    (h1 : ∀ n t rest, P rest → P (.cons n t rest)) : ∀ es, P es :=
  szE_strongInd P (fun es ih => by
    cases es with
    | nil => exact h0
    | cons n t rest => exact h1 n t rest (ih rest (szE_rest_lt n t rest)))

/- ## Entry-list lemmas -/

theorem findE_insertE (n q : String) (t : FSTree) :
    ∀ es, findE (insertE es n t) q = if n = q then some t else findE es q := by
  intro es
  induction es using entriesInd with
  | h0 =>
    by_cases h : n = q <;> simp [insertE, findE, h]
  | h1 m u rest ih =>
    by_cases hmn : m = n
    · subst hmn
      by_cases h : m = q <;> simp [insertE, findE, h]
    · by_cases h : m = q
      · subst h
        have hnm : ¬ n = m := fun hh => hmn hh.symm
        simp [insertE, findE, hmn, hnm]
      · simp [insertE, findE, hmn, h, ih]

theorem appendE_nil : ∀ es, appendE es .nil = es := by
  intro es
  induction es using entriesInd with
  | h0 => rfl
  | h1 n t rest ih => simp [appendE, ih]

theorem appendE_assoc (b c : FSEntries) :
    ∀ a, appendE (appendE a b) c = appendE a (appendE b c) := by
  intro a
  induction a using entriesInd with
  | h0 => rfl
  | h1 n t rest ih => simp [appendE, ih]

theorem insertE_fresh (n : String) (t : FSTree) :
    ∀ es, findE es n = none → insertE es n t = appendE es (.cons n t .nil) := by
  intro es
  induction es using entriesInd with
  | h0 => intro _; rfl
  | h1 m u rest ih =>
    intro h
    by_cases hmn : m = n
    · subst hmn
      simp [findE] at h
    · simp [findE, hmn] at h
      simp [insertE, appendE, hmn, ih h]

theorem findE_appendE_none (b : FSEntries) (n : String) :
    ∀ a, findE a n = none → findE (appendE a b) n = findE b n := by
  intro a
  induction a using entriesInd with
  | h0 => intro _; rfl
  | h1 m u rest ih =>
    intro h
    by_cases hmn : m = n
    · subst hmn; simp [findE] at h
    · simp [findE, hmn] at h
      simp [appendE, findE, hmn, ih h]

theorem findE_cons_isSome (n m : String) (t : FSTree) (rest : FSEntries)
    (h : (findE rest m).isSome) : (findE (.cons n t rest) m).isSome := by
  by_cases hnm : n = m <;> simp [findE, hnm, h]

/- ## Lookup lemmas -/

theorem lookupT_append (q : Path) :
    ∀ p (fs : FSTree), lookupT fs (p ++ q) = (lookupT fs p).bind (fun t => lookupT t q) := by
  intro p
  induction p with
  | nil => intro fs; simp [lookupT]
  | cons n p' ih =>
    intro fs
    cases fs with
    | file c => simp [lookupT]
    | dir es =>
      simp only [List.cons_append, lookupT]
      cases findE es n with
      | none => simp
      | some t => simp [ih t]

theorem lookupT_cons (es : FSEntries) (n : String) (p : Path) :
    lookupT (.dir es) (n :: p) =
      (match findE es n with
       | some t => lookupT t p
       | none => none) := rfl

theorem lookupT_cons_entry (n m : String) (t : FSTree) (rest : FSEntries) (p : Path) :
    lookupT (.dir (.cons n t rest)) (m :: p) =
      if n = m then lookupT t p else lookupT (.dir rest) (m :: p) := by
  by_cases h : n = m <;> simp [lookupT, findE, h]

theorem findE_isSome_of_lookup {es : FSEntries} {m : String} {p : Path} {x : FSTree}
    (h : lookupT (.dir es) (m :: p) = some x) : (findE es m).isSome := by
  rw [lookupT_cons] at h
  cases hf : findE es m with
  | none => rw [hf] at h; simp at h
  | some t => simp

theorem lookupT_dir_insert (d : FSEntries) (n m : String) (t : FSTree) (p : Path) :
    lookupT (.dir (insertE d n t)) (m :: p) =
      if n = m then lookupT t p else lookupT (.dir d) (m :: p) := by
  rw [lookupT_cons, lookupT_cons, findE_insertE]
  by_cases h : n = m <;> simp [h]

/- ## Path-relation lemmas -/

theorem under_nil_left (q : Path) : under [] q := ⟨q, rfl⟩

theorem under_cons (n : String) (p q : Path) : under (n :: p) (n :: q) ↔ under p q := by
  constructor
  · rintro ⟨r, h⟩
    injection h with _ h2
    exact ⟨r, h2⟩
  · rintro ⟨r, h⟩
    exact ⟨r, by rw [h]; rfl⟩

theorem under_extend {p q : Path} (h : under p q) (r : Path) : under p (q ++ r) := by
  obtain ⟨s, hs⟩ := h
  exact ⟨s ++ r, by rw [hs, List.append_assoc]⟩

theorem sep_extend {src dest : Path} (h : sep src dest) (rel : Path) : sep dest (src ++ rel) := by
  obtain ⟨h1, h2⟩ := h
  constructor
  · rintro ⟨r, hr⟩
    rcases Nat.le_total dest.length src.length with hle | hle
    · have htake : (src ++ rel).take dest.length = src.take dest.length :=
        List.take_append_of_le_length hle
      have hdest : dest = src.take dest.length := by
        rw [hr, List.take_left] at htake
        exact htake
      exact h2 ⟨src.drop dest.length, by
        conv_lhs => rw [← List.take_append_drop dest.length src]
        rw [← hdest]⟩
    · have htake : (dest ++ r).take src.length = dest.take src.length :=
        List.take_append_of_le_length hle
      have hsrc : src = dest.take src.length := by
        rw [← hr, List.take_left] at htake
        exact htake
      exact h1 ⟨dest.drop src.length, by
        conv_lhs => rw [← List.take_append_drop src.length dest]
        rw [← hsrc]⟩
  · rintro ⟨r, hr⟩
    exact h1 ⟨rel ++ r, by rw [← List.append_assoc, hr]⟩

/- ## Write-operation lemmas -/

theorem lookupT_nil (t : FSTree) : lookupT t [] = some t := by
  cases t <;> rfl

theorem setPathT_self : ∀ (p : Path) (fs fs' t : FSTree),
    setPathT fs p t = some fs' → lookupT fs' p = some t := by
  intro p
  induction p with
  | nil =>
    intro fs fs' t h
    simp [setPathT] at h
    rw [← h, lookupT_nil]
  | cons n p' ih =>
    intro fs fs' t h
    cases fs with
    | file c => simp [setPathT] at h
    | dir es =>
      cases p' with
      | nil =>
        simp [setPathT] at h
        rw [← h, lookupT_dir_insert]
        simp [lookupT]
      | cons a p'' =>
        simp only [setPathT] at h
        cases hf : findE es n with
        | none => rw [hf] at h; simp at h
        | some u =>
          rw [hf] at h
          simp only [Option.map_eq_some'] at h
          obtain ⟨u2, hu2, hfs'⟩ := h
          rw [← hfs', lookupT_dir_insert]
          simp [ih u u2 t hu2]

theorem setPathT_frame : ∀ (p : Path) (fs fs' t : FSTree) (q : Path),
    setPathT fs p t = some fs' → ¬ under p q → ¬ under q p →
    lookupT fs' q = lookupT fs q := by
  intro p
  induction p with
  | nil =>
    intro fs fs' t q _ hpq _
    exact absurd (under_nil_left q) hpq
  | cons n p' ih =>
    intro fs fs' t q h hpq hqp
    cases fs with
    | file c => simp [setPathT] at h
    | dir es =>
      cases q with
      | nil => exact absurd ⟨n :: p', rfl⟩ hqp
      | cons m q' =>
        by_cases hnm : n = m
        · subst hnm
          cases p' with
          | nil => exact absurd ⟨q', rfl⟩ hpq
          | cons a p'' =>
            simp only [setPathT] at h
            cases hf : findE es n with
            | none => rw [hf] at h; simp at h
            | some u =>
              rw [hf] at h
              simp only [Option.map_eq_some'] at h
              obtain ⟨u2, hu2, hfs'⟩ := h
              rw [← hfs', lookupT_dir_insert]
              simp only [if_pos rfl]
              rw [lookupT_cons, hf]
              exact ih u u2 t q' hu2 (fun hh => hpq ((under_cons n _ _).mpr hh))
                (fun hh => hqp ((under_cons n _ _).mpr hh))
        · have hfs' : ∃ w, fs' = .dir (insertE es n w) := by
            cases p' with
            | nil =>
              simp [setPathT] at h
              exact ⟨t, h.symm⟩
            | cons a p'' =>
              simp only [setPathT] at h
              cases hf : findE es n with
              | none => rw [hf] at h; simp at h
              | some u =>
                rw [hf] at h
                simp only [Option.map_eq_some'] at h
                obtain ⟨u2, _, hfs'⟩ := h
                exact ⟨u2, hfs'.symm⟩
          obtain ⟨w, hw⟩ := hfs'
          rw [hw, lookupT_dir_insert, if_neg hnm]

theorem setPathT_isSome : ∀ (p : Path) (fs t : FSTree),
    (lookupT fs p).isSome → (setPathT fs p t).isSome := by
  intro p
  induction p with
  | nil => intro fs t _; simp [setPathT]
  | cons n p' ih =>
    intro fs t h
    cases fs with
    | file c => simp [lookupT] at h
    | dir es =>
      rw [lookupT_cons] at h
      cases hf : findE es n with
      | none => rw [hf] at h; simp at h
      | some u =>
        rw [hf] at h
        cases p' with
        | nil => simp [setPathT]
        | cons a p'' =>
          simp only [setPathT, hf]
          have := ih u t h
          cases hs : setPathT u (a :: p'') t with
          | none => rw [hs] at this; simp at this
          | some u2 => simp

theorem mkdirpT_fresh_self : ∀ (p : Path) (t : FSTree),
    mkdirpT (.dir .nil) p = some t → lookupT t p = some (.dir .nil) := by
  intro p
  induction p with
  | nil =>
    intro t h
    simp [mkdirpT] at h
    rw [← h]
    rfl
  | cons n p' ih =>
    intro t h
    simp only [mkdirpT, findE, Option.map_eq_some'] at h
    obtain ⟨t2, ht2, ht⟩ := h
    rw [← ht]
    show lookupT (.dir (insertE .nil n t2)) (n :: p') = _
    rw [lookupT_dir_insert, if_pos rfl]
    exact ih t2 ht2

theorem mkdirpT_fresh_none : ∀ (p : Path) (t : FSTree) (q : Path),
    mkdirpT (.dir .nil) p = some t → ¬ under p q → ¬ under q p →
    lookupT t q = none := by
  intro p
  induction p with
  | nil =>
    intro t q _ hpq _
    exact absurd (under_nil_left q) hpq
  | cons n p' ih =>
    intro t q h hpq hqp
    simp only [mkdirpT, findE, Option.map_eq_some'] at h
    obtain ⟨t2, ht2, ht⟩ := h
    cases q with
    | nil => exact absurd ⟨n :: p', rfl⟩ hqp
    | cons m q' =>
      rw [← ht]
      show lookupT (.dir (insertE .nil n t2)) (m :: q') = none
      rw [lookupT_dir_insert]
      by_cases hnm : n = m
      · subst hnm
        simp only [if_pos rfl]
        exact ih t2 q' ht2 (fun hh => hpq ((under_cons n _ _).mpr hh))
          (fun hh => hqp ((under_cons n _ _).mpr hh))
      · rw [if_neg hnm]
        simp [lookupT, findE]

theorem mkdirpT_self : ∀ (p : Path) (fs fs' : FSTree),
    mkdirpT fs p = some fs' → lookupT fs p = none →
    lookupT fs' p = some (.dir .nil) := by
  intro p
  induction p with
  | nil =>
    intro fs fs' h hl
    simp [lookupT] at hl
  | cons n p' ih =>
    intro fs fs' h hl
    cases fs with
    | file c => simp [mkdirpT] at h
    | dir es =>
      rw [lookupT_cons] at hl
      simp only [mkdirpT] at h
      cases hf : findE es n with
      | none =>
        rw [hf] at h
        simp only [Option.map_eq_some'] at h
        obtain ⟨t2, ht2, hfs'⟩ := h
        rw [← hfs', lookupT_dir_insert, if_pos rfl]
        exact mkdirpT_fresh_self p' t2 ht2
      | some u =>
        rw [hf] at h hl
        simp only [Option.map_eq_some'] at h
        obtain ⟨u2, hu2, hfs'⟩ := h
        rw [← hfs', lookupT_dir_insert, if_pos rfl]
        exact ih u u2 hu2 hl

theorem mkdirpT_frame : ∀ (p : Path) (fs fs' : FSTree) (q : Path),
    mkdirpT fs p = some fs' → ¬ under p q → ¬ under q p →
    lookupT fs' q = lookupT fs q := by
  intro p
  induction p with
  | nil =>
    intro fs fs' q h _ _
    cases fs with
    | file c => simp [mkdirpT] at h
    | dir es => simp [mkdirpT] at h; rw [← h]
  | cons n p' ih =>
    intro fs fs' q h hpq hqp
    cases fs with
    | file c => simp [mkdirpT] at h
    | dir es =>
      cases q with
      | nil => exact absurd ⟨n :: p', rfl⟩ hqp
      | cons m q' =>
        simp only [mkdirpT] at h
        by_cases hnm : n = m
        · subst hnm
          cases hf : findE es n with
          | none =>
            rw [hf] at h
            simp only [Option.map_eq_some'] at h
            obtain ⟨t2, ht2, hfs'⟩ := h
            rw [← hfs', lookupT_dir_insert, if_pos rfl, lookupT_cons, hf]
            exact mkdirpT_fresh_none p' t2 q' ht2
              (fun hh => hpq ((under_cons n _ _).mpr hh))
              (fun hh => hqp ((under_cons n _ _).mpr hh))
          | some u =>
            rw [hf] at h
            simp only [Option.map_eq_some'] at h
            obtain ⟨u2, hu2, hfs'⟩ := h
            rw [← hfs', lookupT_dir_insert, if_pos rfl, lookupT_cons, hf]
            exact ih u u2 q' hu2 (fun hh => hpq ((under_cons n _ _).mpr hh))
              (fun hh => hqp ((under_cons n _ _).mpr hh))
        · cases hf : findE es n with
          | none =>
            rw [hf] at h
            simp only [Option.map_eq_some'] at h
            obtain ⟨t2, _, hfs'⟩ := h
            rw [← hfs', lookupT_dir_insert, if_neg hnm]
          | some u =>
            rw [hf] at h
            simp only [Option.map_eq_some'] at h
            obtain ⟨u2, _, hfs'⟩ := h
            rw [← hfs', lookupT_dir_insert, if_neg hnm]


/- ## Well-formedness decomposition -/

theorem wfE_cons_parts {n : String} {t : FSTree} {rest : FSEntries}
    (h : wfE (.cons n t rest) = true) :
    findE rest n = none ∧ wfE rest = true := by
  rw [wfE.eq_def] at h
  simp only [Bool.and_eq_true, Option.isNone_iff_eq_none] at h
  exact ⟨h.1.1, h.2⟩

theorem wfE_cons_dir {n : String} {es2 rest : FSEntries}
    (h : wfE (.cons n (.dir es2) rest) = true) : wfE es2 = true := by
  rw [wfE.eq_def] at h
  simp only [Bool.and_eq_true] at h
  exact h.1.2

/- ## Copy-loop unfolding lemmas -/

theorem copyE_git (t : FSTree) (rest : FSEntries) (t0 : FSTree) (force : Bool) :
    copyE (.cons ".git" t rest) t0 force = copyE rest t0 force := by
  conv_lhs => rw [copyE.eq_def]
  simp

theorem copyE_file_write {n c : String} {rest d : FSEntries}
    (hg : ¬ n = ".git") (hfr : findE d n = none) :
    copyE (.cons n (.file c) rest) (.dir d) true
      = copyE rest (.dir (insertE d n (.file c))) true := by
  conv_lhs => rw [copyE.eq_def]
  simp [hg, hfr]

theorem copyE_dir_step {n : String} {es2 rest d : FSEntries} {sub1 : FSTree}
    (hg : ¬ n = ".git") (hfr : findE d n = none)
    (hsub : copyE es2 (.dir .nil) true = (sub1, true)) :
    copyE (.cons n (.dir es2) rest) (.dir d) true
      = copyE rest (.dir (insertE d n sub1)) true := by
  conv_lhs => rw [copyE.eq_def]
  simp [hg, hfr, hsub]

/- ## Strip unfolding lemmas -/

theorem stripE_nil : stripE .nil = .nil := by
  rw [stripE.eq_def]

theorem stripE_git (t : FSTree) (rest : FSEntries) :
    stripE (.cons ".git" t rest) = stripE rest := by
  rw [stripE.eq_def]
  simp

theorem stripE_file {n c : String} {rest : FSEntries} (hg : ¬ n = ".git") :
    stripE (.cons n (.file c) rest) = .cons n (.file c) (stripE rest) := by
  rw [stripE.eq_def]
  simp [hg]

theorem stripE_dir {n : String} {es2 rest : FSEntries} (hg : ¬ n = ".git") :
    stripE (.cons n (.dir es2) rest) = .cons n (.dir (stripE es2)) (stripE rest) := by
  rw [stripE.eq_def]
  simp [hg]

/- ## Copy into a fresh destination builds the ".git"-stripped source -/

theorem copyE_fresh : ∀ es, wfE es = true →
    ∀ d : FSEntries, (∀ n, (findE es n).isSome → findE d n = none) →
    copyE es (.dir d) true = (.dir (appendE d (stripE es)), true) := by
  intro es0
  induction es0 using szE_strongInd with
  | h es ih =>
    intro hwf d hfresh
    cases es with
    | nil =>
      show copyE .nil (.dir d) true = (.dir (appendE d .nil), true)
      rw [appendE_nil]
      rfl
    | cons n t rest =>
      obtain ⟨hn_rest, hwf_rest⟩ := wfE_cons_parts hwf
      by_cases hg : n = ".git"
      · subst hg
        rw [copyE_git, stripE_git]
        exact ih rest (szE_rest_lt _ t rest) hwf_rest d
          (fun m hm => hfresh m (findE_cons_isSome _ m t rest hm))
      · have hfr : findE d n = none := by
          apply hfresh
          simp [findE]
        have hfresh2 : ∀ (u : FSTree), ∀ m, (findE rest m).isSome →
            findE (appendE d (.cons n u .nil)) m = none := by
          intro u m hm
          have hmn : ¬ n = m := by
            intro hh
            rw [hh] at hn_rest
            rw [hn_rest] at hm
            simp at hm
          rw [findE_appendE_none _ m d (hfresh m (findE_cons_isSome n m t rest hm))]
          simp [findE, hmn]
        cases t with
        | file c =>
          rw [copyE_file_write hg hfr, insertE_fresh n (.file c) d hfr]
          rw [ih rest (szE_rest_lt _ _ rest) hwf_rest _ (hfresh2 (.file c))]
          rw [appendE_assoc, stripE_file hg]
          rfl
        | dir es2 =>
          have hwf2 := wfE_cons_dir hwf
          have hsub : copyE es2 (.dir .nil) true = (.dir (stripE es2), true) := by
            have := ih es2 (szE_sub_lt n es2 rest) hwf2 .nil (fun m _ => rfl)
            rwa [show appendE .nil (stripE es2) = stripE es2 from rfl] at this
          rw [copyE_dir_step hg hfr hsub, insertE_fresh n (.dir (stripE es2)) d hfr]
          rw [ih rest (szE_rest_lt _ _ rest) hwf_rest _ (hfresh2 (.dir (stripE es2)))]
          rw [appendE_assoc, stripE_dir hg]
          rfl

/- ## filesE unfolding -/

theorem filesE_nil_eq (p : Path) : filesE .nil p = [] := by
  rw [filesE.eq_def]

theorem filesE_git (t : FSTree) (rest : FSEntries) (p : Path) :
    filesE (.cons ".git" t rest) p = filesE rest p := by
  rw [filesE.eq_def]
  simp

theorem filesE_file {n c : String} {rest : FSEntries} (p : Path) (hg : ¬ n = ".git") :
    filesE (.cons n (.file c) rest) p = (p ++ [n]) :: filesE rest p := by
  rw [filesE.eq_def]
  simp [hg]

theorem filesE_dir {n : String} {es2 rest : FSEntries} (p : Path) (hg : ¬ n = ".git") :
    filesE (.cons n (.dir es2) rest) p = filesE es2 (p ++ [n]) ++ filesE rest p := by
  rw [filesE.eq_def]
  simp [hg]

theorem filesE_shift : ∀ es, ∀ p : Path, filesE es p = (filesE es []).map (fun r => p ++ r) := by
  intro es0
  induction es0 using szE_strongInd with
  | h es ih =>
    intro p
    cases es with
    | nil => simp [filesE_nil_eq]
    | cons n t rest =>
      by_cases hg : n = ".git"
      · subst hg
        rw [filesE_git, filesE_git, ih rest (szE_rest_lt _ _ _)]
      · cases t with
        | file c =>
          rw [filesE_file p hg, filesE_file [] hg, List.map_cons,
            ih rest (szE_rest_lt _ _ _)]
          simp
        | dir es2 =>
          rw [filesE_dir p hg, filesE_dir [] hg, List.map_append,
            ih es2 (szE_sub_lt _ _ _) (p ++ [n]), ih es2 (szE_sub_lt _ _ _) ([] ++ [n]),
            ih rest (szE_rest_lt _ _ _), List.map_map]
          simp [Function.comp, List.append_assoc]

theorem filesE_strip : ∀ es, ∀ p : Path, filesE (stripE es) p = filesE es p := by
  intro es0
  induction es0 using szE_strongInd with
  | h es ih =>
    intro p
    cases es with
    | nil => rw [stripE_nil]
    | cons n t rest =>
      by_cases hg : n = ".git"
      · subst hg
        rw [stripE_git, filesE_git, ih rest (szE_rest_lt _ _ _)]
      · cases t with
        | file c =>
          rw [stripE_file hg, filesE_file p hg, filesE_file p hg, ih rest (szE_rest_lt _ _ _)]
        | dir es2 =>
          rw [stripE_dir hg, filesE_dir p hg, filesE_dir p hg,
            ih es2 (szE_sub_lt _ _ _), ih rest (szE_rest_lt _ _ _)]

theorem lookupT_dir_nil (m : String) (p : Path) :
    lookupT (.dir .nil) (m :: p) = none := by
  rw [lookupT_cons]
  simp [findE]

theorem filesE_mem : ∀ es, wfE es = true → ∀ rel : Path, rel ∈ filesE es [] →
    (∃ c, lookupT (.dir es) rel = some (.file c)) ∧ ".git" ∉ rel := by
  intro es0
  induction es0 using szE_strongInd with
  | h es ih =>
    intro hwf rel hmem
    cases es with
    | nil => rw [filesE_nil_eq] at hmem; simp at hmem
    | cons n t rest =>
      obtain ⟨hn_rest, hwf_rest⟩ := wfE_cons_parts hwf
      have lift : rel ∈ filesE rest [] →
          (∃ c, lookupT (.dir (.cons n t rest)) rel = some (.file c)) ∧ ".git" ∉ rel := by
        intro hm
        obtain ⟨⟨c, hlook⟩, hgit⟩ := ih rest (szE_rest_lt _ _ _) hwf_rest rel hm
        cases rel with
        | nil => rw [lookupT_nil] at hlook; exact absurd hlook (by simp)
        | cons m rel' =>
          have hnm : ¬ n = m := by
            intro hh
            subst hh
            have := findE_isSome_of_lookup hlook
            rw [hn_rest] at this
            simp at this
          rw [lookupT_cons_entry, if_neg hnm]
          exact ⟨⟨c, hlook⟩, hgit⟩
      by_cases hg : n = ".git"
      · subst hg
        rw [filesE_git] at hmem
        exact lift hmem
      · cases t with
        | file c =>
          rw [filesE_file [] hg] at hmem
          rcases List.mem_cons.mp hmem with h1 | h2
          · subst h1
            refine ⟨⟨c, ?_⟩, ?_⟩
            · rw [List.nil_append, lookupT_cons_entry, if_pos rfl, lookupT_nil]
            · simp [hg]
              intro hh
              exact hg hh.symm
          · exact lift h2
        | dir es2 =>
          rw [filesE_dir [] hg] at hmem
          rcases List.mem_append.mp hmem with h1 | h2
          · rw [List.nil_append, filesE_shift es2 [n]] at h1
            obtain ⟨r2, hr2, hrel⟩ := List.mem_map.mp h1
            obtain ⟨⟨c, hlook⟩, hgit⟩ := ih es2 (szE_sub_lt _ _ _) (wfE_cons_dir hwf) r2 hr2
            subst hrel
            refine ⟨⟨c, ?_⟩, ?_⟩
            · show lookupT (.dir (.cons n (.dir es2) rest)) (n :: r2) = some (.file c)
              rw [lookupT_cons_entry, if_pos rfl]
              exact hlook
            · simp [hgit]
              intro hh
              exact hg hh.symm
          · exact lift h2

/- ## Strip and preserve lemmas -/

theorem strip_read : ∀ es, ∀ (rel : Path) (c : String), ".git" ∉ rel →
    lookupT (.dir es) rel = some (.file c) →
    lookupT (.dir (stripE es)) rel = some (.file c) := by
  intro es0
  induction es0 using szE_strongInd with
  | h es ih =>
    intro rel c hgit hl
    cases rel with
    | nil => rw [lookupT_nil] at hl; exact absurd hl (by simp)
    | cons m rel' =>
      have hmg : ¬ m = ".git" := by
        intro hh
        exact hgit (by rw [hh]; exact List.mem_cons_self _ _)
      have hgit' : ".git" ∉ rel' := fun hh => hgit (List.mem_cons_of_mem _ hh)
      cases es with
      | nil => rw [lookupT_dir_nil] at hl; exact absurd hl (by simp)
      | cons n t rest =>
        by_cases hnm : n = m
        · subst hnm
          rw [lookupT_cons_entry, if_pos rfl] at hl
          have hg : ¬ n = ".git" := hmg
          cases t with
          | file c2 =>
            rw [stripE_file hg, lookupT_cons_entry, if_pos rfl]
            exact hl
          | dir es2 =>
            rw [stripE_dir hg, lookupT_cons_entry, if_pos rfl]
            exact ih es2 (szE_sub_lt _ _ _) rel' c hgit' hl
        · rw [lookupT_cons_entry, if_neg hnm] at hl
          by_cases hg : n = ".git"
          · subst hg
            rw [stripE_git]
            exact ih rest (szE_rest_lt _ _ _) _ c hgit hl
          · cases t with
            | file c2 =>
              rw [stripE_file hg, lookupT_cons_entry, if_neg hnm]
              exact ih rest (szE_rest_lt _ _ _) _ c hgit hl
            | dir es2 =>
              rw [stripE_dir hg, lookupT_cons_entry, if_neg hnm]
              exact ih rest (szE_rest_lt _ _ _) _ c hgit hl

/- copyE general unfolding lemmas -/

theorem copyE_onto_file {n : String} (t : FSTree) (rest : FSEntries) (c0 : String)
    (force : Bool) (hg : ¬ n = ".git") :
    copyE (.cons n t rest) (.file c0) force = (.file c0, false) := by
  conv_lhs => rw [copyE.eq_def]
  cases t <;> simp [hg]

theorem copyE_file_skip {n c : String} {rest d : FSEntries} {force : Bool}
    (hg : ¬ n = ".git") (hc : (!force && (findE d n).isSome) = true) :
    copyE (.cons n (.file c) rest) (.dir d) force = copyE rest (.dir d) force := by
  conv_lhs => rw [copyE.eq_def]
  simp [hg, hc]

theorem copyE_file_onto_dir {n c : String} {rest d dd : FSEntries} {force : Bool}
    (hg : ¬ n = ".git") (hc : (!force && (findE d n).isSome) = false)
    (hf : findE d n = some (.dir dd)) :
    copyE (.cons n (.file c) rest) (.dir d) force = (.dir d, false) := by
  conv_lhs => rw [copyE.eq_def]
  simp [hg, hc, hf]
  intro h
  subst h
  simp [hf] at hc

theorem copyE_file_over_none {n c : String} {rest d : FSEntries} {force : Bool}
    (hg : ¬ n = ".git") (hf : findE d n = none) :
    copyE (.cons n (.file c) rest) (.dir d) force
      = copyE rest (.dir (insertE d n (.file c))) force := by
  conv_lhs => rw [copyE.eq_def]
  simp [hg, hf]

theorem copyE_file_over_file {n c c0 : String} {rest d : FSEntries} {force : Bool}
    (hg : ¬ n = ".git") (hc : (!force && (findE d n).isSome) = false)
    (hf : findE d n = some (.file c0)) :
    copyE (.cons n (.file c) rest) (.dir d) force
      = copyE rest (.dir (insertE d n (.file c))) force := by
  conv_lhs => rw [copyE.eq_def]
  simp [hg, hc, hf]
  intro h
  subst h
  simp [hf] at hc

theorem copyE_dir_unfold {n : String} {es2 rest d : FSEntries} {force : Bool}
    (hg : ¬ n = ".git") :
    copyE (.cons n (.dir es2) rest) (.dir d) force
      = (match copyE es2 (match findE d n with
                         | some u => u
                         | none => .dir .nil) force with
         | (sub1, true) => copyE rest (.dir (insertE d n sub1)) force
         | (sub1, false) => (.dir (insertE d n sub1), false)) := by
  conv_lhs => rw [copyE.eq_def]
  simp [hg]

/- lookup at a ".git"-containing relative path is untouched by the copy loop -/

theorem copyE_git_preserve : ∀ es, ∀ (t0 : FSTree) (force : Bool) (rel : Path),
    ".git" ∈ rel → lookupT (copyE es t0 force).1 rel = lookupT t0 rel := by
  intro es0
  induction es0 using szE_strongInd with
  | h es ih =>
    intro t0 force rel hrel
    cases es with
    | nil => rfl
    | cons n t rest =>
      by_cases hg : n = ".git"
      · subst hg
        rw [copyE_git]
        exact ih rest (szE_rest_lt _ _ _) t0 force rel hrel
      · cases t0 with
        | file c0 => rw [copyE_onto_file t rest c0 force hg]
        | dir d =>
          -- helper: inserting at a non-".git" name over a non-directory (or
          -- writing a subtree equal to the old one at ".git" paths) keeps
          -- ".git" paths intact
          have bridge : ∀ (sub0 sub1 : FSTree),
              (findE d n = some sub0 ∨ (findE d n = none ∧ sub0 = .dir .nil)) →
              (∀ rel2, ".git" ∈ rel2 → lookupT sub1 rel2 = lookupT sub0 rel2) →
              lookupT (.dir (insertE d n sub1)) rel = lookupT (.dir d) rel := by
            intro sub0 sub1 hf hsub
            cases rel with
            | nil => simp at hrel
            | cons m rel' =>
              rw [lookupT_dir_insert]
              by_cases hnm : n = m
              · subst hnm
                rw [if_pos rfl]
                have hrel' : ".git" ∈ rel' := by
                  rcases List.mem_cons.mp hrel with hh | hh
                  · exact absurd hh.symm hg
                  · exact hh
                rw [hsub rel' hrel', lookupT_cons]
                rcases hf with hf | ⟨hf, hs0⟩
                · rw [hf]
                · rw [hf, hs0]
                  cases rel' with
                  | nil => simp at hrel'
                  | cons a rel'' => rw [lookupT_dir_nil]
              · rw [if_neg hnm]
          cases t with
          | file c =>
            cases hc : (!force && (findE d n).isSome) with
            | true =>
              rw [copyE_file_skip hg hc]
              exact ih rest (szE_rest_lt _ _ _) _ force rel hrel
            | false =>
              cases hf : findE d n with
              | none =>
                rw [copyE_file_over_none hg hf]
                rw [ih rest (szE_rest_lt _ _ _) _ force rel hrel]
                refine bridge (.dir .nil) (.file c) (Or.inr ⟨hf, rfl⟩) ?_
                intro rel2 h2
                cases rel2 with
                | nil => simp at h2
                | cons a rel'' => rw [lookupT_dir_nil]; rfl
              | some u =>
                cases u with
                | file c0 =>
                  rw [copyE_file_over_file hg hc hf]
                  rw [ih rest (szE_rest_lt _ _ _) _ force rel hrel]
                  refine bridge (.file c0) (.file c) (Or.inl hf) ?_
                  intro rel2 h2
                  cases rel2 with
                  | nil => simp at h2
                  | cons a rel'' => rfl
                | dir dd =>
                  rw [copyE_file_onto_dir hg hc hf]
          | dir es2 =>
            rw [copyE_dir_unfold hg]
            rcases hsub : copyE es2 (match findE d n with
              | some u => u
              | none => .dir .nil) force with ⟨sub1, ok⟩
            have hpres : ∀ rel2, ".git" ∈ rel2 →
                lookupT sub1 rel2 = lookupT (match findE d n with
                  | some u => u
                  | none => FSTree.dir .nil) rel2 := by
              intro rel2 h2
              have := ih es2 (szE_sub_lt _ _ _) (match findE d n with
                | some u => u
                | none => FSTree.dir .nil) force rel2 h2
              rw [hsub] at this
              exact this
            have hcase : (findE d n = some (match findE d n with
                | some u => u
                | none => FSTree.dir .nil)) ∨
                (findE d n = none ∧ (match findE d n with
                  | some u => u
                  | none => FSTree.dir .nil) = FSTree.dir .nil) := by
              cases hf : findE d n with
              | none => exact Or.inr ⟨rfl, rfl⟩
              | some u => exact Or.inl rfl
            cases ok with
            | true =>
              rw [ih rest (szE_rest_lt _ _ _) _ force rel hrel]
              exact bridge _ sub1 hcase hpres
            | false =>
              exact bridge _ sub1 hcase hpres

/- ## Diff and union-set lemmas -/

theorem diffScript_self : ∀ l : List String,
    diffScript l l = l.map (fun s => (LineKind.common, s)) := by
  intro l
  induction l with
  | nil => simp [diffScript]
  | cons x xs ih => simp [diffScript, ih]

theorem pushChange_flags (c : Change) (l : List Change)
    (hc : c.added = false ∧ c.removed = false)
    (hl : ∀ c0 ∈ l, c0.added = false ∧ c0.removed = false) :
    ∀ c0 ∈ pushChange c l, c0.added = false ∧ c0.removed = false := by
  intro c0 hc0
  cases l with
  | nil =>
    simp [pushChange] at hc0
    rw [hc0]
    exact hc
  | cons c1 cs =>
    have hc1 := hl c1 (List.mem_cons_self _ _)
    have hcond : (c.added == c1.added && c.removed == c1.removed) = true := by
      rw [hc.1, hc.2, hc1.1, hc1.2]
      rfl
    have he : pushChange c (c1 :: cs)
        = ⟨c.value ++ "\n" ++ c1.value, c1.added, c1.removed⟩ :: cs := by
      show (if (c.added == c1.added && c.removed == c1.removed) = true then
          (⟨c.value ++ "\n" ++ c1.value, c1.added, c1.removed⟩ : Change) :: cs
        else c :: c1 :: cs) = _
      rw [if_pos hcond]
    rw [he] at hc0
    rcases List.mem_cons.mp hc0 with h1 | h2
    · rw [h1]
      exact ⟨hc1.1, hc1.2⟩
    · exact hl c0 (List.mem_cons_of_mem _ h2)

theorem groupScript_common : ∀ ops : List (LineKind × String),
    (∀ op ∈ ops, op.1 = LineKind.common) →
    ∀ c ∈ groupScript ops, c.added = false ∧ c.removed = false := by
  intro ops
  induction ops with
  | nil =>
    intro _ c hc
    simp [groupScript] at hc
  | cons op rest ih =>
    intro hall c hc
    obtain ⟨k, s⟩ := op
    have hk : k = LineKind.common := hall (k, s) (List.mem_cons_self _ _)
    subst hk
    have hrest : ∀ op ∈ rest, op.1 = LineKind.common :=
      fun op hop => hall op (List.mem_cons_of_mem _ hop)
    simp only [groupScript] at hc
    exact pushChange_flags _ _ ⟨rfl, rfl⟩ (ih hrest) c hc

theorem diffLines_self (s : String) :
    ∀ c ∈ diffLines s s, c.added = false ∧ c.removed = false := by
  apply groupScript_common
  rw [diffScript_self]
  intro op hop
  obtain ⟨x, hx, hop2⟩ := List.mem_map.mp hop
  rw [← hop2]

theorem diffLines_self_noChange (s : String) :
    (diffLines s s).any (fun c => c.added || c.removed) = false := by
  rw [List.any_eq_false]
  intro c hc
  obtain ⟨h1, h2⟩ := diffLines_self s c hc
  simp [h1, h2]

/- union set lemmas -/

theorem mem_setAdd (l : List Path) (x y : Path) :
    y ∈ setAdd l x ↔ y ∈ l ∨ y = x := by
  unfold setAdd
  by_cases h : x ∈ l
  · rw [if_pos h]
    constructor
    · exact Or.inl
    · rintro (hy | hy)
      · exact hy
      · rw [hy]; exact h
  · rw [if_neg h]
    simp

theorem mem_foldl_setAdd : ∀ (l : List Path) (acc : List Path) (x : Path),
    x ∈ l.foldl setAdd acc ↔ x ∈ acc ∨ x ∈ l := by
  intro l
  induction l with
  | nil => intro acc x; simp
  | cons y l ih =>
    intro acc x
    rw [List.foldl_cons, ih, mem_setAdd]
    constructor
    · rintro ((h | h) | h)
      · exact Or.inl h
      · exact Or.inr (by rw [h]; exact List.mem_cons_self _ _)
      · exact Or.inr (List.mem_cons_of_mem _ h)
    · rintro (h | h)
      · exact Or.inl (Or.inl h)
      · rcases List.mem_cons.mp h with h1 | h2
        · exact Or.inl (Or.inr h1)
        · exact Or.inr h2

theorem nodup_setAdd (l : List Path) (x : Path) (h : l.Nodup) : (setAdd l x).Nodup := by
  unfold setAdd
  by_cases hx : x ∈ l
  · rw [if_pos hx]; exact h
  · rw [if_neg hx]
    simp [List.nodup_append, h, hx]

theorem nodup_foldl_setAdd : ∀ (l : List Path) (acc : List Path),
    acc.Nodup → (l.foldl setAdd acc).Nodup := by
  intro l
  induction l with
  | nil => intro acc h; exact h
  | cons y l ih =>
    intro acc h
    rw [List.foldl_cons]
    exact ih _ (nodup_setAdd acc y h)

/- ## Comparator lemmas and the copy-compare round trip -/

theorem readFile_lookup {fs : FSTree} {p : Path} {c : String}
    (h : readFile fs p = some c) : lookupT fs p = some (.file c) := by
  unfold readFile at h
  cases hl : lookupT fs p with
  | none => rw [hl] at h; simp at h
  | some t =>
    cases t with
    | file c2 => rw [hl] at h; simp at h; rw [h]
    | dir es => rw [hl] at h; simp at h

theorem readFile_of_lookup {fs : FSTree} {p : Path} {c : String}
    (h : lookupT fs p = some (.file c)) : readFile fs p = some c := by
  unfold readFile
  rw [h]

theorem existsB_of_lookup {fs : FSTree} {p : Path} {t : FSTree}
    (h : lookupT fs p = some t) : existsB fs p = true := by
  unfold existsB
  rw [h]
  rfl

theorem compareFiles_both {fs : FSTree} {p q : Path} {a b : String}
    (ha : readFile fs p = some a) (hb : readFile fs q = some b) :
    compareFiles fs p q = .ok (some ⟨p, p, q, diffLines a b, false, false⟩) := by
  have hla := readFile_lookup ha
  have hlb := readFile_lookup hb
  unfold compareFiles
  rw [existsB_of_lookup hla, existsB_of_lookup hlb]
  simp [ha, hb]

theorem collectDiffs_ok {fs : FSTree} {src dest : Path} : ∀ rels : List Path,
    (∀ rel ∈ rels, ∃ c, readFile fs (src ++ rel) = some c ∧ readFile fs (dest ++ rel) = some c) →
    ∃ ds, collectDiffs fs src dest rels = .ok ds ∧ ∀ d ∈ ds, hasDifferences d = false := by
  intro rels
  induction rels with
  | nil => intro _; exact ⟨[], rfl, by simp⟩
  | cons rel rest ih =>
    intro h
    obtain ⟨c, hr1, hr2⟩ := h rel (List.mem_cons_self _ _)
    obtain ⟨ds, hds, hall⟩ := ih (fun r hr => h r (List.mem_cons_of_mem _ hr))
    refine ⟨⟨src ++ rel, src ++ rel, dest ++ rel, diffLines c c, false, false⟩ :: ds, ?_, ?_⟩
    · simp only [collectDiffs]
      rw [compareFiles_both hr1 hr2, hds]
      rfl
    · intro d hd
      rcases List.mem_cons.mp hd with h1 | h2
      · rw [h1]
        unfold hasDifferences
        simp [diffLines_self_noChange c]
      · exact hall d h2

theorem map_relOf : ∀ (base : Path) (l : List Path),
    (l.map (fun r => base ++ r)).map (relOf base) = l := by
  intro base l
  induction l with
  | nil => rfl
  | cons r l ih => simp [relOf, List.drop_left, ih]

/-- C2 core, directory case: copying a well-formed source directory to a
fresh, separate destination succeeds and the subsequent comparison reports
no differences. -/
theorem copy_then_compare_dir (fs : FSTree) (src dest : Path) (es : FSEntries) (fs1 : FSTree)
    (hsrc : lookupT fs src = some (.dir es)) (hwf : wfE es = true)
    (hdest : lookupT fs dest = none) (hmk : mkdirpT fs dest = some fs1)
    (hsep : sep src dest) :
    (copyDirectory fs src dest true).2 = true ∧
    ∃ ds, compareDirectories (copyDirectory fs src dest true).1 src dest = .ok ds ∧
      ∀ d ∈ ds, hasDifferences d = false := by
  have e1 : ensureDir fs dest = some fs1 := by
    unfold ensureDir existsB
    rw [hdest]
    exact hmk
  have hsrc1 : lookupT fs1 src = some (.dir es) := by
    rw [mkdirpT_frame dest fs fs1 src hmk hsep.2 hsep.1, hsrc]
  have hdest1 : lookupT fs1 dest = some (.dir .nil) := mkdirpT_self dest fs fs1 hmk hdest
  have hcopy : copyE es (.dir .nil) true = (.dir (stripE es), true) := by
    have h := copyE_fresh es hwf .nil (fun m _ => rfl)
    rwa [show appendE FSEntries.nil (stripE es) = stripE es from rfl] at h
  obtain ⟨fs2, hset⟩ : ∃ fs2, setPathT fs1 dest (.dir (stripE es)) = some fs2 := by
    have := setPathT_isSome dest fs1 (.dir (stripE es)) (by rw [hdest1]; rfl)
    cases hs : setPathT fs1 dest (.dir (stripE es)) with
    | none => rw [hs] at this; simp at this
    | some fs2 => exact ⟨fs2, rfl⟩
  have hcd : copyDirectory fs src dest true = (fs2, true) := by
    unfold copyDirectory
    simp only [e1, hsrc1, hdest1, hcopy, hset]
  have hsrc2 : lookupT fs2 src = some (.dir es) := by
    rw [setPathT_frame dest fs1 fs2 (.dir (stripE es)) src hset hsep.2 hsep.1, hsrc1]
  have hdest2 : lookupT fs2 dest = some (.dir (stripE es)) :=
    setPathT_self dest fs1 fs2 (.dir (stripE es)) hset
  rw [hcd]
  refine ⟨rfl, ?_⟩
  have hga_src : getAllFiles fs2 src = some (filesE es src) := by
    unfold getAllFiles
    rw [hsrc2]
  have hga_dest : getAllFiles fs2 dest = some (filesE es dest) := by
    unfold getAllFiles
    simp only [hdest2]
    rw [filesE_strip]
  have hrels_src : (filesE es src).map (relOf src) = filesE es [] := by
    rw [filesE_shift es src, map_relOf]
  have hrels_dest : (filesE es dest).map (relOf dest) = filesE es [] := by
    rw [filesE_shift es dest, map_relOf]
  have hcmp : compareDirectories fs2 src dest
      = collectDiffs fs2 src dest
          ((filesE es [] ++ filesE es []).foldl setAdd []) := by
    unfold compareDirectories
    rw [existsB_of_lookup hsrc2, existsB_of_lookup hdest2]
    simp only [Bool.not_true, Bool.and_self, Bool.false_and, if_false]
    rw [hga_src, hga_dest]
    simp only [hrels_src, hrels_dest]
    simp
  rw [hcmp]
  apply collectDiffs_ok
  intro rel hrel
  have hrel2 : rel ∈ filesE es [] := by
    rcases (mem_foldl_setAdd _ [] rel).mp hrel with h | h
    · simp at h
    · exact (List.mem_append.mp h).elim id id
  obtain ⟨⟨c, hlook⟩, hgit⟩ := filesE_mem es hwf rel hrel2
  refine ⟨c, ?_, ?_⟩
  · unfold readFile
    rw [lookupT_append rel src fs2, hsrc2]
    simp only [Option.some_bind]
    rw [hlook]
  · unfold readFile
    rw [lookupT_append rel dest fs2, hdest2]
    simp only [Option.some_bind]
    rw [strip_read es rel c hgit hlook]

/- ## Union comparator and file round trip -/

theorem compareFiles_left {fs : FSTree} {p q : Path} {c : String}
    (hp : lookupT fs p = some (.file c)) (hq : notDirO (lookupT fs q) = true) :
    ∃ d, compareFiles fs p q = .ok (some d) ∧ d.repoPath = p := by
  cases hlq : lookupT fs q with
  | none =>
    refine ⟨⟨p, p, q, [], true, false⟩, ?_, rfl⟩
    unfold compareFiles existsB
    rw [hp, hlq]
    simp
  | some t =>
    cases t with
    | file c2 =>
      exact ⟨_, compareFiles_both (readFile_of_lookup hp) (readFile_of_lookup hlq), rfl⟩
    | dir es =>
      rw [hlq] at hq
      simp [notDirO] at hq

theorem compareFiles_right {fs : FSTree} {p q : Path} {c : String}
    (hp : notDirO (lookupT fs p) = true) (hq : lookupT fs q = some (.file c)) :
    ∃ d, compareFiles fs p q = .ok (some d) ∧ d.repoPath = p := by
  cases hlp : lookupT fs p with
  | none =>
    refine ⟨⟨p, p, q, [], false, true⟩, ?_, rfl⟩
    unfold compareFiles existsB
    rw [hlp, hq]
    simp
  | some t =>
    cases t with
    | file c2 =>
      exact ⟨_, compareFiles_both (readFile_of_lookup hlp) (readFile_of_lookup hq), rfl⟩
    | dir es =>
      rw [hlp] at hp
      simp [notDirO] at hp

theorem collectDiffs_map {fs : FSTree} {repoDir instDir : Path} : ∀ rels : List Path,
    (∀ rel ∈ rels, ∃ d, compareFiles fs (repoDir ++ rel) (instDir ++ rel) = .ok (some d) ∧
      d.repoPath = repoDir ++ rel) →
    ∃ ds, collectDiffs fs repoDir instDir rels = .ok ds ∧
      ds.map (fun d => d.repoPath) = rels.map (fun rel => repoDir ++ rel) := by
  intro rels
  induction rels with
  | nil => intro _; exact ⟨[], rfl, rfl⟩
  | cons rel rest ih =>
    intro h
    obtain ⟨d, hd, hdp⟩ := h rel (List.mem_cons_self _ _)
    obtain ⟨ds, hds, hmap⟩ := ih (fun r hr => h r (List.mem_cons_of_mem _ hr))
    refine ⟨d :: ds, ?_, ?_⟩
    · simp only [collectDiffs]
      rw [hd, hds]
      rfl
    · simp [hdp, hmap]

/-- C10 core: with both directories present and no file/directory conflict
at any listed relative path, the comparator returns one `FileDiff` per
distinct relative path of the two listings, in first-occurrence order. -/
theorem compareDirectories_union (fs : FSTree) (repoDir instDir : Path)
    (esR esI : FSEntries)
    (hR : lookupT fs repoDir = some (.dir esR)) (hwfR : wfE esR = true)
    (hI : lookupT fs instDir = some (.dir esI)) (hwfI : wfE esI = true)
    (hcR : ∀ rel ∈ filesE esR [], notDirO (lookupT (.dir esI) rel) = true)
    (hcI : ∀ rel ∈ filesE esI [], notDirO (lookupT (.dir esR) rel) = true) :
    ∃ ds, compareDirectories fs repoDir instDir = .ok ds ∧
      ds.map (fun d => d.repoPath)
        = ((filesE esR [] ++ filesE esI []).foldl setAdd []).map (fun rel => repoDir ++ rel) ∧
      ((filesE esR [] ++ filesE esI []).foldl setAdd []).Nodup ∧
      (∀ rel, rel ∈ (filesE esR [] ++ filesE esI []).foldl setAdd []
        ↔ (rel ∈ filesE esR [] ∨ rel ∈ filesE esI [])) := by
  have hga_R : getAllFiles fs repoDir = some (filesE esR repoDir) := by
    unfold getAllFiles
    rw [hR]
  have hga_I : getAllFiles fs instDir = some (filesE esI instDir) := by
    unfold getAllFiles
    rw [hI]
  have hrels_R : (filesE esR repoDir).map (relOf repoDir) = filesE esR [] := by
    rw [filesE_shift esR repoDir, map_relOf]
  have hrels_I : (filesE esI instDir).map (relOf instDir) = filesE esI [] := by
    rw [filesE_shift esI instDir, map_relOf]
  have hcmp : compareDirectories fs repoDir instDir
      = collectDiffs fs repoDir instDir
          ((filesE esR [] ++ filesE esI []).foldl setAdd []) := by
    unfold compareDirectories
    rw [existsB_of_lookup hR, existsB_of_lookup hI]
    simp only [Bool.not_true, Bool.and_self, Bool.false_and]
    rw [hga_R, hga_I]
    simp only [hrels_R, hrels_I]
    simp
  have hmem : ∀ rel, rel ∈ (filesE esR [] ++ filesE esI []).foldl setAdd []
      ↔ (rel ∈ filesE esR [] ∨ rel ∈ filesE esI []) := by
    intro rel
    rw [mem_foldl_setAdd]
    simp
  obtain ⟨ds, hds, hmap⟩ := @collectDiffs_map fs repoDir instDir
      ((filesE esR [] ++ filesE esI []).foldl setAdd []) (by
    intro rel hrel
    rcases (hmem rel).mp hrel with hr | hr
    · obtain ⟨⟨c, hlook⟩, _⟩ := filesE_mem esR hwfR rel hr
      have h1 : lookupT fs (repoDir ++ rel) = some (.file c) := by
        rw [lookupT_append rel repoDir fs, hR]
        simp only [Option.some_bind]
        exact hlook
      have h2 : notDirO (lookupT fs (instDir ++ rel)) = true := by
        rw [lookupT_append rel instDir fs, hI]
        simp only [Option.some_bind]
        exact hcR rel hr
      exact compareFiles_left h1 h2
    · obtain ⟨⟨c, hlook⟩, _⟩ := filesE_mem esI hwfI rel hr
      have h1 : notDirO (lookupT fs (repoDir ++ rel)) = true := by
        rw [lookupT_append rel repoDir fs, hR]
        simp only [Option.some_bind]
        exact hcI rel hr
      have h2 : lookupT fs (instDir ++ rel) = some (.file c) := by
        rw [lookupT_append rel instDir fs, hI]
        simp only [Option.some_bind]
        exact hlook
      exact compareFiles_right h1 h2)
  rw [hcmp]
  exact ⟨ds, hds, hmap, nodup_foldl_setAdd _ [] List.nodup_nil, hmem⟩

/-- C2 core, file case. -/
theorem copy_then_compare_file (fs : FSTree) (p q : Path) (c : String) (fs2 : FSTree)
    (hp : readFile fs p = some c) (hcopy : copyFileFS fs p q = (fs2, true))
    (hpq : p = q ∨ sep p q) :
    ∃ d, compareFiles fs2 p q = .ok (some d) ∧ hasDifferences d = false := by
  have hlp := readFile_lookup hp
  unfold copyFileFS at hcopy
  rw [hp] at hcopy
  have hset : setPathT fs q (.file c) = some fs2 := by
    cases hlq : lookupT fs q with
    | none =>
      rw [hlq] at hcopy
      simp only at hcopy
      cases hs : setPathT fs q (.file c) with
      | none => rw [hs] at hcopy; simp at hcopy
      | some fs2' => rw [hs] at hcopy; simp at hcopy; rw [hcopy]
    | some t =>
      rw [hlq] at hcopy
      cases t with
      | file c2 =>
        simp only at hcopy
        cases hs : setPathT fs q (.file c) with
        | none => rw [hs] at hcopy; simp at hcopy
        | some fs2' => rw [hs] at hcopy; simp at hcopy; rw [hcopy]
      | dir es => simp at hcopy
  have hq2 : lookupT fs2 q = some (.file c) := setPathT_self q fs fs2 (.file c) hset
  have hp2 : lookupT fs2 p = some (.file c) := by
    rcases hpq with h | h
    · rw [h]
      exact hq2
    · rw [setPathT_frame q fs fs2 (.file c) p hset h.2 h.1]
      exact hlp
  refine ⟨⟨p, p, q, diffLines c c, false, false⟩,
    compareFiles_both (readFile_of_lookup hp2) (readFile_of_lookup hq2), ?_⟩
  unfold hasDifferences
  simp [diffLines_self_noChange c]

/- ## Command-layer helper lemmas -/

theorem backupStep_name (fs : FSTree) (item : BackupItem) :
    (backupStep fs item).2.name = item.name := by
  unfold backupStep
  split
  · rfl
  · split
    · split
      · rfl
      · split
        · rfl
        · rfl
    · split
      · rfl
      · rfl

theorem performBackup_names : ∀ (items : List BackupItem) (fs : FSTree),
    ((performBackup items fs).2).map (fun r => r.name) = items.map (fun i => i.name) := by
  intro items
  induction items with
  | nil => intro fs; rfl
  | cons item rest ih =>
    intro fs
    rcases h1 : backupStep fs item with ⟨fs1, r⟩
    rcases h2 : performBackup rest fs1 with ⟨fs2, rs⟩
    simp only [performBackup, h1, h2, List.map_cons]
    have hn := backupStep_name fs item
    rw [h1] at hn
    have ht := ih fs1
    rw [h2] at ht
    rw [hn, ht]

theorem installHelix_name (env : Env) (fs : FSTree) (dryrun force : Bool)
    (fromD : Option String) : (installHelix env fs dryrun force fromD).2.name = "helix" := by
  unfold installHelix
  cases fromD <;> dsimp only <;> (repeat' split) <;> rfl

theorem installTmux_name (env : Env) (fs : FSTree) (dryrun force : Bool)
    (fromD : Option String) : (installTmux env fs dryrun force fromD).2.name = "tmux" := by
  unfold installTmux
  cases fromD <;> dsimp only <;> (repeat' split) <;> rfl

theorem installBashrc_name (env : Env) (fs : FSTree) (dryrun force : Bool)
    (fromD : Option String) : (installBashrc env fs dryrun force fromD).2.name = "bashrc" := by
  unfold installBashrc
  cases fromD <;> dsimp only <;> (repeat' split) <;> rfl

/-- C7: every batch command records exactly one outcome per entry, in order:
`performBackup` maps each item to a result of the same name whatever the
outcomes, an error in one item only marks that item's result and the loop
continues on the remaining items, and `installAll` always produces its three
results in order. -/
theorem C7_per_entry_isolation :
    (∀ (fs : FSTree) (items : List BackupItem),
        ((performBackup items fs).2).map (fun r => r.name) = items.map (fun i => i.name)
        ∧ (performBackup items fs).2.length = items.length)
    ∧ (∀ (fs : FSTree) (item : BackupItem) (rest : List BackupItem),
        performBackup (item :: rest) fs
          = ((performBackup rest (backupStep fs item).1).1,
             (backupStep fs item).2 :: (performBackup rest (backupStep fs item).1).2))
    ∧ (∀ (env : Env) (fs : FSTree) (dryrun force : Bool) (fromD : Option String),
        ((installAll env fs dryrun force fromD).2).map (fun r => r.name)
          = ["helix", "tmux", "bashrc"]) := by
  refine ⟨?_, ?_, ?_⟩
  · intro fs items
    constructor
    · exact performBackup_names items fs
    · have h := performBackup_names items fs
      have := congrArg List.length h
      simpa using this
  · intro fs item rest
    rcases h1 : backupStep fs item with ⟨fs1, r⟩
    rcases h2 : performBackup rest fs1 with ⟨fs2, rs⟩
    simp only [performBackup, h1, h2]
  · intro env fs dryrun force fromD
    rcases h1 : installHelix env fs dryrun force fromD with ⟨fs1, r1⟩
    rcases h2 : installTmux env fs1 dryrun force fromD with ⟨fs2, r2⟩
    rcases h3 : installBashrc env fs2 dryrun force fromD with ⟨fs3, r3⟩
    simp only [installAll, h1, h2, h3, List.map_cons, List.map_nil]
    have e1 := installHelix_name env fs dryrun force fromD
    have e2 := installTmux_name env fs1 dryrun force fromD
    have e3 := installBashrc_name env fs2 dryrun force fromD
    rw [h1] at e1
    rw [h2] at e2
    rw [h3] at e3
    rw [e1, e2, e3]

/-- C3: the file comparator returns nothing when neither path exists, a
one-sided `FileDiff` with no line changes when exactly one exists, and a
both-present `FileDiff` carrying the line edit script when both are files. -/
theorem C3_compareFiles_cases : ∀ (fs : FSTree) (p q : Path),
    (existsB fs p = false → existsB fs q = false → compareFiles fs p q = .ok none)
    ∧ (existsB fs p = true → existsB fs q = false →
        compareFiles fs p q = .ok (some ⟨p, p, q, [], true, false⟩))
    ∧ (existsB fs p = false → existsB fs q = true →
        compareFiles fs p q = .ok (some ⟨p, p, q, [], false, true⟩))
    ∧ (∀ a b, readFile fs p = some a → readFile fs q = some b →
        compareFiles fs p q = .ok (some ⟨p, p, q, diffLines a b, false, false⟩)) := by
  intro fs p q
  refine ⟨?_, ?_, ?_, ?_⟩
  · intro h1 h2
    unfold compareFiles
    rw [h1, h2]
    rfl
  · intro h1 h2
    unfold compareFiles
    rw [h1, h2]
    rfl
  · intro h1 h2
    unfold compareFiles
    rw [h1, h2]
    rfl
  · intro a b ha hb
    exact compareFiles_both ha hb

theorem C3_compareFiles_cases_witness :
    compareFiles (.dir (.cons "a" (.file "x") (.cons "b" (.file "y") .nil))) ["a"] ["zz"]
      = .ok (some ⟨["a"], ["a"], ["zz"], [], true, false⟩)
    ∧ compareFiles (.dir (.cons "a" (.file "x") (.cons "b" (.file "y") .nil))) ["a"] ["b"]
      = .ok (some ⟨["a"], ["a"], ["b"], diffLines "x" "y", false, false⟩) :=
  ⟨(C3_compareFiles_cases (.dir (.cons "a" (.file "x") (.cons "b" (.file "y") .nil)))
      ["a"] ["zz"]).2.1 rfl rfl,
   (C3_compareFiles_cases (.dir (.cons "a" (.file "x") (.cons "b" (.file "y") .nil)))
      ["a"] ["b"]).2.2.2 "x" "y" rfl rfl⟩

/-- C9: the backup command's display never exits non-zero: its exit
component is 0 for every result list, its summary counts every unsuccessful
result (missing source or caught copy error) as skipped so that backed-up
plus skipped always equals the number of items, and a missing source yields
an unsuccessful "not found, skipped" result without touching the
filesystem. -/
theorem C9_backup_exit_zero :
    (∀ results : List BackupResult, (displayBackupResults results).2.2 = 0)
    ∧ (∀ (items : List BackupItem) (fs : FSTree),
        (displayBackupResults (performBackup items fs).2).1
          + (displayBackupResults (performBackup items fs).2).2.1
          = items.length)
    ∧ (∀ (fs : FSTree) (item : BackupItem), existsB fs item.source = false →
        backupStep fs item = (fs, ⟨item.name, false, some "not found, skipped"⟩)) := by
  refine ⟨?_, ?_, ?_⟩
  · intro results
    rfl
  · intro items fs
    show ((performBackup items fs).2).countP (fun r => r.success)
        + ((performBackup items fs).2).countP (fun r => !r.success) = items.length
    have hlen : (performBackup items fs).2.length = items.length := by
      have h := performBackup_names items fs
      have := congrArg List.length h
      simpa using this
    rw [← hlen]
    induction (performBackup items fs).2 with
    | nil => rfl
    | cons r rs ih =>
      rw [List.countP_cons, List.countP_cons, List.length_cons]
      cases hr : r.success <;> simp [hr] <;> omega
  · intro fs item h
    unfold backupStep
    rw [h]
    rfl

theorem C9_backup_exit_zero_witness :
    backupStep (.dir .nil) ⟨["home", ".bashrc"], ["repo", "backups", "d", "bashrc"], .file, "bashrc"⟩
      = ((.dir .nil), ⟨"bashrc", false, some "not found, skipped"⟩)
    ∧ (displayBackupResults [⟨"bashrc", false, some "not found, skipped"⟩]).2.2 = 0 :=
  ⟨C9_backup_exit_zero.2.2 (.dir .nil)
      ⟨["home", ".bashrc"], ["repo", "backups", "d", "bashrc"], .file, "bashrc"⟩ rfl,
   C9_backup_exit_zero.1 [⟨"bashrc", false, some "not found, skipped"⟩]⟩

/-- C8: the verify command's display exits non-zero exactly when some
non-optional item is not installed; the three recommended tools are
optional while every other check is mandatory; and a `bashrc` whose content
differs from the repo copy is reported installed with a warning, so it does
not affect the exit code. -/
theorem C8_verify_exit :
    (∀ results : List VerifyResult,
        verifyDisplayExit results ≠ 0
          ↔ ∃ r ∈ results, r.installed = false ∧ r.optional = false)
    ∧ (∀ env : Env, (verifyGh env).optional = true
        ∧ (verifyGitHubCopilotCli env).optional = true ∧ (verifyHtop env).optional = true)
    ∧ (∀ env : Env, (verifyHelix env).optional = false ∧ (verifyTmux env).optional = false
        ∧ (verifyFzf env).optional = false ∧ (verifyStarship env).optional = false)
    ∧ (∀ (env : Env) (fs : FSTree), (verifyNvm env fs).optional = false
        ∧ (verifyZoxide env fs).optional = false ∧ (verifyBashrc env fs).optional = false)
    ∧ (∀ (env : Env) (fs : FSTree) (a b : String),
        readFile fs (env.home ++ [".bashrc"]) = some a →
        readFile fs (env.repoRoot ++ ["configs", "bashrc"]) = some b → a ≠ b →
        (verifyBashrc env fs).installed = true ∧ (verifyBashrc env fs).warning = true) := by
  refine ⟨?_, ?_, ?_, ?_, ?_⟩
  · intro results
    unfold verifyDisplayExit
    by_cases h : results.all (fun r => r.installed || r.optional) = true
    · rw [if_pos h]
      simp only [ne_eq, not_true_eq_false, false_iff]  -- 0 ≠ 0 is false
      rintro ⟨r, hr, h1, h2⟩
      have := List.all_eq_true.mp h r hr
      rw [h1, h2] at this
      simp at this
    · rw [if_neg h]
      simp only [ne_eq, one_ne_zero, not_false_eq_true, true_iff]
      rw [List.all_eq_true] at h
      push_neg at h
      obtain ⟨r, hr, hb⟩ := h
      refine ⟨r, hr, ?_⟩
      cases h1 : r.installed <;> cases h2 : r.optional <;> rw [h1, h2] at hb <;> simp at hb ⊢
  · intro env
    exact ⟨rfl, rfl, rfl⟩
  · intro env
    exact ⟨rfl, rfl, rfl, rfl⟩
  · intro env fs
    refine ⟨rfl, rfl, ?_⟩
    unfold verifyBashrc
    dsimp only
    split
    · rfl
    · split
      · split <;> rfl
      · rfl
  · intro env fs a b ha hb hne
    have hex : existsB fs (env.home ++ [".bashrc"]) = true :=
      existsB_of_lookup (readFile_lookup ha)
    unfold verifyBashrc
    dsimp only
    rw [hex]
    simp only [Bool.true_eq_false, if_false, ha, hb]
    rw [if_pos hne]
    exact ⟨rfl, rfl⟩

theorem C8_verify_exit_witness :
    (verifyBashrc ⟨["home"], ["repo"], []⟩
        (.dir (.cons "home" (.dir (.cons ".bashrc" (.file "a") .nil))
          (.cons "repo" (.dir (.cons "configs" (.dir (.cons "bashrc" (.file "b") .nil)) .nil))
            .nil)))).installed = true
    ∧ (verifyBashrc ⟨["home"], ["repo"], []⟩
        (.dir (.cons "home" (.dir (.cons ".bashrc" (.file "a") .nil))
          (.cons "repo" (.dir (.cons "configs" (.dir (.cons "bashrc" (.file "b") .nil)) .nil))
            .nil)))).warning = true :=
  C8_verify_exit.2.2.2.2 ⟨["home"], ["repo"], []⟩
    (.dir (.cons "home" (.dir (.cons ".bashrc" (.file "a") .nil))
      (.cons "repo" (.dir (.cons "configs" (.dir (.cons "bashrc" (.file "b") .nil)) .nil))
        .nil)))
    "a" "b" rfl rfl (by decide)

/-- C1 counterexample: a sync run in which every entry merely reports
"not found" (and nothing is copied or modified) still makes the process
exit with code 1, contradicting the claim that a not-found entry never
causes a non-zero exit. -/
theorem C1_counterexample :
    displaySyncExit (syncAll ⟨["home"], ["repo"], []⟩ (.dir .nil) false).2 false = 1
    ∧ ((syncAll ⟨["home"], ["repo"], []⟩ (.dir .nil) false).2).map (fun r => r.message)
      = [some "~/.config/helix not found", some "~/.config/tmux/tmux.conf not found",
         some "~/.bashrc not found"]
    ∧ (syncAll ⟨["home"], ["repo"], []⟩ (.dir .nil) false).1 = .dir .nil :=
  ⟨rfl, rfl, rfl⟩

/-- C1 (amended): the sync and install commands exit 0 exactly when the run
is a dry run or every per-entry result is a success; a skipped install
entry counts as a success and never triggers a non-zero exit, but an entry
whose source path does not exist is recorded as a failure and therefore
does cause exit code 1. -/
theorem C1_exit_amended :
    (∀ (results : List SyncResult) (dryrun : Bool),
        displaySyncExit results dryrun = 0
          ↔ (dryrun = true ∨ ∀ r ∈ results, r.success = true))
    ∧ (∀ (results : List InstallResult) (dryrun : Bool),
        installDisplayExit results dryrun = 0
          ↔ (dryrun = true ∨ ∀ r ∈ results, r.success = true))
    ∧ (∀ (env : Env) (fs : FSTree),
        existsB fs (env.home ++ [".config", "helix"]) = false →
        (syncHelix env fs false).2.success = false ∧ (syncHelix env fs false).1 = fs)
    ∧ (∀ (env : Env) (fs : FSTree) (fromD : Option String),
        existsB fs (installSourceBase env fromD ++ ["bashrc"]) = true →
        existsB fs (env.home ++ [".bashrc"]) = true →
        (installBashrc env fs false false fromD).2.success = true
          ∧ (installBashrc env fs false false fromD).2.skipped = true) := by
  refine ⟨?_, ?_, ?_, ?_⟩
  · intro results dryrun
    unfold displaySyncExit
    cases dryrun with
    | true => simp
    | false =>
      simp only [Bool.false_eq_true, if_false, false_or]
      by_cases h : results.all (fun r => r.success) = true
      · rw [if_pos h]
        simp only [true_iff]
        exact fun r hr => List.all_eq_true.mp h r hr
      · rw [if_neg h]
        simp only [one_ne_zero, false_iff]
        intro hall
        exact h (List.all_eq_true.mpr hall)
  · intro results dryrun
    unfold installDisplayExit
    cases dryrun with
    | true => simp
    | false =>
      simp only [Bool.false_eq_true, if_false, false_or]
      by_cases h : results.all (fun r => r.success) = true
      · rw [if_pos h]
        simp only [true_iff]
        exact fun r hr => List.all_eq_true.mp h r hr
      · rw [if_neg h]
        simp only [one_ne_zero, false_iff]
        intro hall
        exact h (List.all_eq_true.mpr hall)
  · intro env fs h
    unfold syncHelix
    dsimp only
    rw [h]
    exact ⟨rfl, rfl⟩
  · intro env fs fromD hsrc hdest
    unfold installBashrc
    dsimp only
    rw [hsrc, hdest]
    exact ⟨rfl, rfl⟩

theorem C1_exit_amended_witness :
    ((syncHelix ⟨["home"], ["repo"], []⟩ (.dir .nil) false).2.success = false
      ∧ (syncHelix ⟨["home"], ["repo"], []⟩ (.dir .nil) false).1 = .dir .nil)
    ∧ ((installBashrc ⟨["home"], ["repo"], []⟩
          (.dir (.cons "home" (.dir (.cons ".bashrc" (.file "h") .nil))
            (.cons "repo" (.dir (.cons "configs" (.dir (.cons "bashrc" (.file "r") .nil)) .nil))
              .nil))) false false none).2.success = true
      ∧ (installBashrc ⟨["home"], ["repo"], []⟩
          (.dir (.cons "home" (.dir (.cons ".bashrc" (.file "h") .nil))
            (.cons "repo" (.dir (.cons "configs" (.dir (.cons "bashrc" (.file "r") .nil)) .nil))
              .nil))) false false none).2.skipped = true) :=
  ⟨C1_exit_amended.2.2.1 ⟨["home"], ["repo"], []⟩ (.dir .nil) rfl,
   C1_exit_amended.2.2.2 ⟨["home"], ["repo"], []⟩
     (.dir (.cons "home" (.dir (.cons ".bashrc" (.file "h") .nil))
       (.cons "repo" (.dir (.cons "configs" (.dir (.cons "bashrc" (.file "r") .nil)) .nil))
         .nil))) none rfl rfl⟩

/-- C4: installing an entry whose destination already exists with
force/overwrite off performs no copy at all: the filesystem is returned
unchanged and the per-entry outcome is a successful "skipped" result with
the corresponding message, for each of the three config entries. -/
theorem C4_skip_preserves_destination :
    ∀ (env : Env) (fs : FSTree) (dryrun : Bool) (fromD : Option String),
    (existsB fs (installSourceBase env fromD ++ ["helix"]) = true →
      existsB fs (env.home ++ [".config", "helix"]) = true →
      installHelix env fs dryrun false fromD
        = (fs, ⟨"helix", true, some "~/.config/helix already exists (use --force to overwrite)", true⟩))
    ∧ (existsB fs (installSourceBase env fromD ++ ["tmux", "tmux.conf"]) = true →
      existsB fs (env.home ++ [".config", "tmux", "tmux.conf"]) = true →
      installTmux env fs dryrun false fromD
        = (fs, ⟨"tmux", true, some "~/.config/tmux/tmux.conf already exists (use --force to overwrite)", true⟩))
    ∧ (existsB fs (installSourceBase env fromD ++ ["bashrc"]) = true →
      existsB fs (env.home ++ [".bashrc"]) = true →
      installBashrc env fs dryrun false fromD
        = (fs, ⟨"bashrc", true, some "~/.bashrc already exists (use --force to overwrite)", true⟩)) := by
  intro env fs dryrun fromD
  refine ⟨?_, ?_, ?_⟩
  · intro hsrc hdest
    unfold installHelix
    dsimp only
    rw [hsrc, hdest]
    rfl
  · intro hsrc hdest
    unfold installTmux
    dsimp only
    rw [hsrc, hdest]
    rfl
  · intro hsrc hdest
    unfold installBashrc
    dsimp only
    rw [hsrc, hdest]
    rfl

theorem C4_skip_preserves_destination_witness :
    installBashrc ⟨["home"], ["repo"], []⟩
        (.dir (.cons "home" (.dir (.cons ".bashrc" (.file "h") .nil))
          (.cons "repo" (.dir (.cons "configs" (.dir (.cons "bashrc" (.file "r") .nil)) .nil))
            .nil))) false false none
      = ((.dir (.cons "home" (.dir (.cons ".bashrc" (.file "h") .nil))
          (.cons "repo" (.dir (.cons "configs" (.dir (.cons "bashrc" (.file "r") .nil)) .nil))
            .nil))),
         ⟨"bashrc", true, some "~/.bashrc already exists (use --force to overwrite)", true⟩) :=
  (C4_skip_preserves_destination ⟨["home"], ["repo"], []⟩
    (.dir (.cons "home" (.dir (.cons ".bashrc" (.file "h") .nil))
      (.cons "repo" (.dir (.cons "configs" (.dir (.cons "bashrc" (.file "r") .nil)) .nil))
        .nil))) false none).2.2 rfl rfl

/-- C5: with dry-run enabled neither sync nor install modifies the
filesystem in any branch of any entry, and the per-entry result still
reports the action that would have been performed (shown for the helix
sync entry: a "Would sync" message naming source and destination). -/
theorem C5_dryrun_no_mutation :
    ∀ (env : Env) (fs : FSTree) (force : Bool) (fromD : Option String),
    (syncHelix env fs true).1 = fs
    ∧ (syncTmux env fs true).1 = fs
    ∧ (syncBashrc env fs true).1 = fs
    ∧ (installHelix env fs true force fromD).1 = fs
    ∧ (installTmux env fs true force fromD).1 = fs
    ∧ (installBashrc env fs true force fromD).1 = fs
    ∧ (existsB fs (env.home ++ [".config", "helix"]) = true →
        (syncHelix env fs true).2 = ⟨"helix", true,
          some ("Would sync: " ++ renderPath (env.home ++ [".config", "helix"]) ++ " → "
            ++ renderPath (env.repoRoot ++ ["configs", "helix"]))⟩) := by
  intro env fs force fromD
  refine ⟨?_, ?_, ?_, ?_, ?_, ?_, ?_⟩
  · unfold syncHelix
    dsimp only
    split <;> rfl
  · unfold syncTmux
    dsimp only
    split <;> rfl
  · unfold syncBashrc
    dsimp only
    split <;> rfl
  · unfold installHelix
    dsimp only
    split
    · rfl
    · split <;> rfl
  · unfold installTmux
    dsimp only
    split
    · rfl
    · split <;> rfl
  · unfold installBashrc
    dsimp only
    split
    · rfl
    · split <;> rfl
  · intro h
    unfold syncHelix
    dsimp only
    rw [h]
    rfl

theorem C5_dryrun_no_mutation_witness :
    (syncHelix ⟨["home"], ["repo"], []⟩
        (.dir (.cons "home" (.dir (.cons ".config" (.dir (.cons "helix"
          (.dir (.cons "config.toml" (.file "theme" ) .nil)) .nil)) .nil)) .nil)) true).2
      = ⟨"helix", true, some ("Would sync: " ++ renderPath (["home"] ++ [".config", "helix"])
          ++ " → " ++ renderPath (["repo"] ++ ["configs", "helix"]))⟩ :=
  (C5_dryrun_no_mutation ⟨["home"], ["repo"], []⟩
    (.dir (.cons "home" (.dir (.cons ".config" (.dir (.cons "helix"
      (.dir (.cons "config.toml" (.file "theme") .nil)) .nil)) .nil)) .nil)) false
    none).2.2.2.2.2.2 rfl

theorem filesE_nogit : ∀ es, ∀ (p q : Path), q ∈ filesE es p →
    ∃ rel, q = p ++ rel ∧ ".git" ∉ rel := by
  intro es0
  induction es0 using szE_strongInd with
  | h es ih =>
    intro p q hmem
    cases es with
    | nil => rw [filesE_nil_eq] at hmem; simp at hmem
    | cons n t rest =>
      by_cases hg : n = ".git"
      · subst hg
        rw [filesE_git] at hmem
        exact ih rest (szE_rest_lt _ _ _) p q hmem
      · cases t with
        | file c =>
          rw [filesE_file p hg] at hmem
          rcases List.mem_cons.mp hmem with h1 | h2
          · refine ⟨[n], h1, ?_⟩
            simp
            intro hh
            exact hg hh.symm
          · exact ih rest (szE_rest_lt _ _ _) p q h2
        | dir es2 =>
          rw [filesE_dir p hg] at hmem
          rcases List.mem_append.mp hmem with h1 | h2
          · obtain ⟨rel2, hq, hrel2⟩ := ih es2 (szE_sub_lt _ _ _) (p ++ [n]) q h1
            refine ⟨n :: rel2, by rw [hq, List.append_assoc]; rfl, ?_⟩
            intro hh
            rcases List.mem_cons.mp hh with h3 | h4
            · exact hg h3.symm
            · exact hrel2 h4
          · exact ih rest (szE_rest_lt _ _ _) p q h2

/-- C6: a directory entry literally named ".git" is never traversed or
copied: the copy loop skips ".git" source entries outright, every node at a
destination path containing a ".git" component is left exactly as it was by
any copy (so nothing is ever copied into or over a ".git" subtree), and the
comparator's recursive listing never reports a path with a ".git"
component. -/
theorem C6_git_never_touched :
    (∀ (t : FSTree) (rest : FSEntries) (t0 : FSTree) (force : Bool),
        copyE (.cons ".git" t rest) t0 force = copyE rest t0 force)
    ∧ (∀ (es : FSEntries) (t0 : FSTree) (force : Bool) (rel : Path), ".git" ∈ rel →
        lookupT (copyE es t0 force).1 rel = lookupT t0 rel)
    ∧ (∀ (es : FSEntries) (p q : Path), q ∈ filesE es p →
        ∃ rel, q = p ++ rel ∧ ".git" ∉ rel) :=
  ⟨copyE_git, fun es t0 force rel h => copyE_git_preserve es t0 force rel h,
   fun es p q h => filesE_nogit es p q h⟩

theorem C6_git_never_touched_witness :
    lookupT (copyE (.cons "f" (.file "x") .nil)
        (.dir (.cons ".git" (.dir (.cons "HEAD" (.file "ref" ) .nil)) .nil)) true).1
        [".git", "HEAD"]
      = lookupT (.dir (.cons ".git" (.dir (.cons "HEAD" (.file "ref") .nil)) .nil))
          [".git", "HEAD"]
    ∧ (["A", "f"] : Path) = ["A"] ++ ["f"] ∧ ".git" ∉ (["f"] : Path) :=
  ⟨C6_git_never_touched.2.1 (.cons "f" (.file "x") .nil)
      (.dir (.cons ".git" (.dir (.cons "HEAD" (.file "ref") .nil)) .nil)) true
      [".git", "HEAD"] (by decide),
   by
    have h := C6_git_never_touched.2.2 (.cons "f" (.file "x") .nil) ["A"] ["A", "f"]
      (by decide)
    obtain ⟨rel, h1, h2⟩ := h
    have hrel : rel = ["f"] := by
      have := h1
      simp at this
      rw [this]
    exact ⟨by rw [h1, hrel], by rw [← hrel]; exact h2⟩⟩

/-- C2 counterexample: with overwrite, copying an empty directory A over an
existing destination B that already contains a file completes successfully,
yet the comparison of A and B afterwards reports a difference (a
target-only entry), contradicting "regardless of what existed at B
beforehand". -/
theorem C2_counterexample :
    copyDirectory
        (.dir (.cons "A" (.dir .nil) (.cons "B" (.dir (.cons "x" (.file "s") .nil)) .nil)))
        ["A"] ["B"] true
      = ((.dir (.cons "A" (.dir .nil) (.cons "B" (.dir (.cons "x" (.file "s") .nil)) .nil))), true)
    ∧ compareDirectories
        (.dir (.cons "A" (.dir .nil) (.cons "B" (.dir (.cons "x" (.file "s") .nil)) .nil)))
        ["A"] ["B"]
      = .ok [⟨["A", "x"], ["A", "x"], ["B", "x"], [], false, true⟩]
    ∧ hasDifferences ⟨["A", "x"], ["A", "x"], ["B", "x"], [], false, true⟩ = true :=
  ⟨rfl, rfl, rfl⟩

/-- C2 (amended): after `copy(A, B, overwrite = true)` the comparison of A
and B reports no differences, provided the destination did not exist
beforehand and the two paths are not nested one inside the other: for a
directory A (with distinct entry names, as on a real filesystem) the copy
succeeds and every `FileDiff` of the comparison has no added or removed
lines and no one-sided flag; for a file A, a completed copy makes the file
comparison report a both-present diff with no differences. -/
theorem C2_copy_compare_amended :
    (∀ (fs : FSTree) (src dest : Path) (es : FSEntries) (fs1 : FSTree),
        lookupT fs src = some (.dir es) → wfE es = true →
        lookupT fs dest = none → mkdirpT fs dest = some fs1 → sep src dest →
        (copyDirectory fs src dest true).2 = true ∧
        ∃ ds, compareDirectories (copyDirectory fs src dest true).1 src dest = .ok ds ∧
          ∀ d ∈ ds, hasDifferences d = false)
    ∧ (∀ (fs : FSTree) (p q : Path) (c : String) (fs2 : FSTree),
        readFile fs p = some c → copyFileFS fs p q = (fs2, true) → (p = q ∨ sep p q) →
        ∃ d, compareFiles fs2 p q = .ok (some d) ∧ hasDifferences d = false) :=
  ⟨copy_then_compare_dir, copy_then_compare_file⟩

theorem C2_copy_compare_amended_witness :
    ((copyDirectory
        (.dir (.cons "A" (.dir (.cons "f" (.file "hi")
          (.cons ".git" (.dir (.cons "g" (.file "z") .nil)) .nil))) .nil))
        ["A"] ["B"] true).2 = true
      ∧ ∃ ds, compareDirectories
          ((copyDirectory
            (.dir (.cons "A" (.dir (.cons "f" (.file "hi")
              (.cons ".git" (.dir (.cons "g" (.file "z") .nil)) .nil))) .nil))
            ["A"] ["B"] true).1) ["A"] ["B"] = .ok ds ∧
          ∀ d ∈ ds, hasDifferences d = false)
    ∧ (∃ d, compareFiles (.dir (.cons "s" (.file "c") (.cons "t" (.file "c") .nil)))
        ["s"] ["t"] = .ok (some d) ∧ hasDifferences d = false) :=
  ⟨C2_copy_compare_amended.1
      (.dir (.cons "A" (.dir (.cons "f" (.file "hi")
        (.cons ".git" (.dir (.cons "g" (.file "z") .nil)) .nil))) .nil))
      ["A"] ["B"]
      (.cons "f" (.file "hi") (.cons ".git" (.dir (.cons "g" (.file "z") .nil)) .nil))
      (.dir (.cons "A" (.dir (.cons "f" (.file "hi")
        (.cons ".git" (.dir (.cons "g" (.file "z") .nil)) .nil)))
        (.cons "B" (.dir .nil) .nil)))
      rfl rfl rfl rfl (by decide),
   C2_copy_compare_amended.2
      (.dir (.cons "s" (.file "c") .nil)) ["s"] ["t"] "c"
      (.dir (.cons "s" (.file "c") (.cons "t" (.file "c") .nil)))
      rfl rfl (Or.inr (by decide))⟩

/-- C10 counterexample: with both directories existing, a relative path
that is a file in one tree and a directory in the other makes the
comparator throw (the uncaught `readFileSync` of a directory) instead of
returning one `FileDiff` per distinct relative path. -/
theorem C10_counterexample :
    compareDirectories
        (.dir (.cons "repo" (.dir (.cons "a" (.file "x") .nil))
          (.cons "inst" (.dir (.cons "a" (.dir (.cons "b" (.file "y") .nil)) .nil)) .nil)))
        ["repo"] ["inst"]
      = .error ()
    ∧ getAllFiles
        (.dir (.cons "repo" (.dir (.cons "a" (.file "x") .nil))
          (.cons "inst" (.dir (.cons "a" (.dir (.cons "b" (.file "y") .nil)) .nil)) .nil)))
        ["repo"] = some [["repo", "a"]]
    ∧ getAllFiles
        (.dir (.cons "repo" (.dir (.cons "a" (.file "x") .nil))
          (.cons "inst" (.dir (.cons "a" (.dir (.cons "b" (.file "y") .nil)) .nil)) .nil)))
        ["inst"] = some [["inst", "a", "b"]] :=
  ⟨rfl, rfl, rfl⟩

/-- C10 (amended): when both directories exist (with distinct entry names
at every level) and no listed relative path is a file on one side while
resolving to a directory on the other, the comparator returns exactly one
`FileDiff` per distinct relative path occurring in either tree (".git"
subtrees excluded), in first-occurrence order of the union, and never two
for the same relative path, because the union of relative paths is formed
as a set. -/
theorem C10_union_amended :
    ∀ (fs : FSTree) (repoDir instDir : Path) (esR esI : FSEntries),
    lookupT fs repoDir = some (.dir esR) → wfE esR = true →
    lookupT fs instDir = some (.dir esI) → wfE esI = true →
    (∀ rel ∈ filesE esR [], notDirO (lookupT (.dir esI) rel) = true) →
    (∀ rel ∈ filesE esI [], notDirO (lookupT (.dir esR) rel) = true) →
    ∃ ds, compareDirectories fs repoDir instDir = .ok ds ∧
      ds.map (fun d => d.repoPath)
        = ((filesE esR [] ++ filesE esI []).foldl setAdd []).map (fun rel => repoDir ++ rel) ∧
      ((filesE esR [] ++ filesE esI []).foldl setAdd []).Nodup ∧
      (∀ rel, rel ∈ (filesE esR [] ++ filesE esI []).foldl setAdd []
        ↔ (rel ∈ filesE esR [] ∨ rel ∈ filesE esI [])) :=
  fun fs repoDir instDir esR esI h1 h2 h3 h4 h5 h6 =>
    compareDirectories_union fs repoDir instDir esR esI h1 h2 h3 h4 h5 h6

theorem C10_union_amended_witness :
    ∃ ds, compareDirectories
        (.dir (.cons "repo" (.dir (.cons "a" (.file "x") .nil))
          (.cons "inst" (.dir (.cons "b" (.file "y") .nil)) .nil)))
        ["repo"] ["inst"] = .ok ds ∧
      ds.map (fun d => d.repoPath)
        = ((filesE (.cons "a" (.file "x") .nil) []
            ++ filesE (.cons "b" (.file "y") .nil) []).foldl setAdd []).map
            (fun rel => ["repo"] ++ rel) ∧
      ((filesE (.cons "a" (.file "x") .nil) []
        ++ filesE (.cons "b" (.file "y") .nil) []).foldl setAdd []).Nodup ∧
      (∀ rel, rel ∈ (filesE (.cons "a" (.file "x") .nil) []
          ++ filesE (.cons "b" (.file "y") .nil) []).foldl setAdd []
        ↔ (rel ∈ filesE (.cons "a" (.file "x") .nil) []
            ∨ rel ∈ filesE (.cons "b" (.file "y") .nil) [])) :=
  C10_union_amended
    (.dir (.cons "repo" (.dir (.cons "a" (.file "x") .nil))
      (.cons "inst" (.dir (.cons "b" (.file "y") .nil)) .nil)))
    ["repo"] ["inst"] (.cons "a" (.file "x") .nil) (.cons "b" (.file "y") .nil)
    rfl rfl rfl rfl (by decide) (by decide)

end DF
